import Mathlib

/-!
Verification of the quick-union union-find structure (`QuickUnionUf`) from
`src/quick_union.rs`.  The Rust structure holds a `DashMap<usize, usize>`
parent-link map and a `Vec<Option<V>>` payload store.  In every state the
source can construct, the key set of the parent map is exactly
`0 .. payload.len()`, so the map is embedded as a dense `List Nat` indexed by
key.  Operations that can panic (`unwrap` on a missing key or an empty slot)
or diverge (the `find` loop on a cyclic map) return `Option`; `none` models a
panic or divergence.  `find` mutates the parent map through interior
mutability, so it returns the updated state together with the root.
-/

set_option maxHeartbeats 1000000

namespace UFSpec

/-- Result of the merge policy (`UnionResult` in the source): `Left v` means
the left root survives carrying merged value `v`; `Right v` means the right
root survives. -/
inductive UnionResult (V : Type) where
  | Left : V → UnionResult V
  | Right : V → UnionResult V
deriving DecidableEq

/-- The merge-policy capability required of the payload type (the `Union`
trait in the source). -/
class Union (V : Type) where
  union : V → V → UnionResult V

/-- State of `QuickUnionUf<V>`: the `link_parent` map as a dense list indexed
by key, and the payload store with one optional slot per element. -/
structure QuickUnionUf (V : Type) where
  link_parent : List Nat
  payload : List (Option V)
deriving DecidableEq

variable {V : Type}

/-- `DashMap::insert(k, v)` on the dense-list embedding: overwrite an existing
key, or append when `k` is the next fresh key (the only not-yet-present key the
source ever inserts, namely `payload.len()` during `insert`). -/
def mapInsert (lp : List Nat) (k v : Nat) : List Nat :=
  if k < lp.length then lp.set k v else lp ++ [v]

/-- The `while p != k` loop of `QuickUnionUf::find`, with explicit fuel.
Each iteration reads `pp = parent(p)`, rewrites `parent(k) = pp` (path
halving) and advances `k = p, p = pp`.  `none` models a lookup panic or
running out of fuel; on well-formed states the fuel passed by `find` always
suffices. -/
def findLoop : Nat → List Nat → Nat → Nat → Option (List Nat × Nat)
  | 0, _, _, _ => none
  | fuel + 1, lp, k, p =>
    if p = k then some (lp, k)
    else
      match lp.get? p with
      | none => none
      | some pp => findLoop fuel (mapInsert lp k pp) p pp

/-- `QuickUnionUf::find`: read `p = parent(key)` (panicking if absent), run
the halving loop, return the updated state and the root. -/
def find (uf : QuickUnionUf V) (key : Nat) : Option (QuickUnionUf V × Nat) :=
  match uf.link_parent.get? key with
  | none => none
  | some p =>
    match findLoop (uf.link_parent.length + 1) uf.link_parent key p with
    | none => none
    | some (lp, r) => some ({ uf with link_parent := lp }, r)

/-- `QuickUnionUf::size`: the payload vector's length. -/
def size (uf : QuickUnionUf V) : Nat :=
  uf.payload.length

/-- `QuickUnionUf::insert`: let `key = payload.len()`, insert `key ↦ key`
into the parent map, push `Some data`, return `key`. -/
def insert (uf : QuickUnionUf V) (data : V) : QuickUnionUf V × Nat :=
  let key := uf.payload.length
  ({ link_parent := mapInsert uf.link_parent key key,
     payload := uf.payload ++ [some data] }, key)

/-- `QuickUnionUf::union`: resolve both roots (each `find` compresses paths),
return `false` if they coincide; otherwise take both payloads out, fold them
with the merge policy, store the merged value at the surviving root and relink
the losing root beneath it, returning `true`. -/
def union [Union V] (uf : QuickUnionUf V) (key0 key1 : Nat) :
    Option (QuickUnionUf V × Bool) :=
  match find uf key0 with
  | none => none
  | some (uf0, k0) =>
    match find uf0 key1 with
    | none => none
    | some (uf1, k1) =>
      if k0 = k1 then some (uf1, false)
      else
        match uf1.payload.get? k0 with
        | none => none
        | some none => none
        | some (some v0) =>
          let payload0 := uf1.payload.set k0 none
          match payload0.get? k1 with
          | none => none
          | some none => none
          | some (some v1) =>
            let payload1 := payload0.set k1 none
            match Union.union v0 v1 with
            | UnionResult.Left v =>
                some ({ link_parent := mapInsert uf1.link_parent k1 k0,
                        payload := payload1.set k0 (some v) }, true)
            | UnionResult.Right v =>
                some ({ link_parent := mapInsert uf1.link_parent k0 k1,
                        payload := payload1.set k1 (some v) }, true)

/-- `QuickUnionUf::get`: resolve the root, return the payload stored there
(`unwrap` of an out-of-range index or empty slot is `none`).  The state after
the embedded `find` is returned as well, since `find` compresses paths. -/
def get (uf : QuickUnionUf V) (key : Nat) : Option (QuickUnionUf V × V) :=
  match find uf key with
  | none => none
  | some (uf1, root_key) =>
    match uf1.payload.get? root_key with
    | none => none
    | some none => none
    | some (some v) => some (uf1, v)

/-- `QuickUnionUf::get_mut`: like `get`, but the caller holds a mutable
reference to the root slot; the parameter `w` models the value the caller
writes through that reference.  Returns the previous value and the state
after the write. -/
def get_mut (uf : QuickUnionUf V) (key : Nat) (w : V) :
    Option (QuickUnionUf V × V) :=
  match find uf key with
  | none => none
  | some (uf1, root_key) =>
    match uf1.payload.get? root_key with
    | none => none
    | some none => none
    | some (some v) =>
      some ({ uf1 with payload := uf1.payload.set root_key (some w) }, v)

/-- `Extend for QuickUnionUf`: append `Some v` for each value, then extend the
parent map with `x ↦ x` for each new index `x` in `len .. new_len`. -/
def extend (uf : QuickUnionUf V) (values : List V) : QuickUnionUf V :=
  let len := uf.payload.length
  let payload := uf.payload ++ values.map some
  let new_len := payload.length
  { link_parent := uf.link_parent ++ List.range' len (new_len - len),
    payload := payload }

/-- `FromIterator for QuickUnionUf`: start from the empty structure and
`extend` with the values. -/
def from_iter (values : List V) : QuickUnionUf V :=
  extend { link_parent := [], payload := [] } values

/-- Parent of `i`, totalised with `i` itself as the default (only ever used at
in-range indices in the invariants and specifications). -/
def parentD (lp : List Nat) (i : Nat) : Nat :=
  lp.getD i i

/-- `i` is a root: its parent link is a self-loop. -/
def IsRoot (lp : List Nat) (i : Nat) : Prop :=
  parentD lp i = i

instance (lp : List Nat) (i : Nat) : Decidable (IsRoot lp i) :=
  inferInstanceAs (Decidable (parentD lp i = i))

/-- `m`-fold application of the parent map. -/
def iterP (lp : List Nat) : Nat → Nat → Nat
  | 0, i => i
  | m + 1, i => iterP lp m (parentD lp i)

/-- The root an element resolves to: since paths in a well-formed map of `n`
entries have length below `n`, `n` parent steps always land on the root. -/
def rootOf (lp : List Nat) (i : Nat) : Nat :=
  iterP lp lp.length i

/-- Structural invariant of the parent map: every in-range entry is in range,
and every in-range index reaches a root (self-loop) within `length` steps —
so the map is total over `[0, size)` and acyclic except for root self-loops. -/
def WFlink (lp : List Nat) : Prop :=
  (∀ i, i < lp.length → parentD lp i < lp.length) ∧
  (∀ i, i < lp.length → IsRoot lp (iterP lp lp.length i))

/-- Full structural invariant: the parent map covers exactly the indices of
the payload store, and satisfies the parent-map invariant. -/
def WF (uf : QuickUnionUf V) : Prop :=
  uf.link_parent.length = uf.payload.length ∧ WFlink uf.link_parent

/-- Payload-slot invariant: a slot is populated exactly when its index is a
root. -/
def SlotInv (uf : QuickUnionUf V) : Prop :=
  ∀ i, i < uf.payload.length →
    ((uf.payload.getD i none).isSome = true ↔ IsRoot uf.link_parent i)

/-- `RootedAt lp i r`: following parent links from `i` terminates at the root
`r`. -/
inductive RootedAt (lp : List Nat) : Nat → Nat → Prop where
  | self (r : Nat) : IsRoot lp r → RootedAt lp r r
  | step (i r : Nat) : ¬ IsRoot lp i → RootedAt lp (parentD lp i) r →
      RootedAt lp i r

/-- States reachable from the empty structure by successful public
operations. -/
inductive Reachable [Union V] : QuickUnionUf V → Prop where
  | empty : Reachable { link_parent := [], payload := [] }
  | insert (uf : QuickUnionUf V) (v : V) : Reachable uf →
      Reachable (UFSpec.insert uf v).1
  | union (uf uf' : QuickUnionUf V) (a b : Nat) (t : Bool) : Reachable uf →
      UFSpec.union uf a b = some (uf', t) → Reachable uf'
  | find (uf uf' : QuickUnionUf V) (k r : Nat) : Reachable uf →
      UFSpec.find uf k = some (uf', r) → Reachable uf'
  | get (uf uf' : QuickUnionUf V) (k : Nat) (v : V) : Reachable uf →
      UFSpec.get uf k = some (uf', v) → Reachable uf'
  | get_mut (uf uf' : QuickUnionUf V) (k : Nat) (w v : V) : Reachable uf →
      UFSpec.get_mut uf k w = some (uf', v) → Reachable uf'
  | extend (uf : QuickUnionUf V) (vs : List V) : Reachable uf →
      Reachable (UFSpec.extend uf vs)

/-! Basic facts about `parentD`, `iterP` and `mapInsert`. -/

theorem parentD_eq_get? (lp : List Nat) (j : Nat) (h : j < lp.length) :
    lp.get? j = some (parentD lp j) := by
  simp [parentD, List.getD, List.getD_eq_getElem?_getD, List.getElem?_eq_getElem h]

theorem parentD_lt_length (lp : List Nat) (j : Nat) (h : j < lp.length) :
    parentD lp j = lp.getD j 0 := by
  simp [parentD, List.getD_eq_getElem?_getD, List.getElem?_eq_getElem h]

theorem parentD_set_ne (lp : List Nat) (k x j : Nat) (h : j ≠ k) :
    parentD (lp.set k x) j = parentD lp j := by
  simp [parentD, List.getD_eq_getElem?_getD, List.getElem?_set_ne (Ne.symm h)]

theorem parentD_set_self (lp : List Nat) (k x : Nat) (h : k < lp.length) :
    parentD (lp.set k x) k = x := by
  simp [parentD, List.getD_eq_getElem?_getD, List.getElem?_set_self h]

theorem parentD_append (lp xs : List Nat) (j : Nat) (h : j < lp.length) :
    parentD (lp ++ xs) j = parentD lp j := by
  simp [parentD, List.getD_eq_getElem?_getD, List.getElem?_append_left h]

theorem mapInsert_lt (lp : List Nat) (k v : Nat) (h : k < lp.length) :
    mapInsert lp k v = lp.set k v := by
  simp [mapInsert, h]

theorem mapInsert_append (lp : List Nat) (v : Nat) :
    mapInsert lp lp.length v = lp ++ [v] := by
  simp [mapInsert]

theorem iterP_succ_inner (lp : List Nat) (m i : Nat) :
    iterP lp (m + 1) i = iterP lp m (parentD lp i) := rfl

theorem iterP_add (lp : List Nat) (a b i : Nat) :
    iterP lp (a + b) i = iterP lp b (iterP lp a i) := by
  induction a generalizing i with
  | zero => simp [iterP]
  | succ a ih =>
    have h1 : a + 1 + b = (a + b) + 1 := by omega
    rw [h1, iterP_succ_inner, ih, ← iterP_succ_inner]

theorem isRoot_iterP_fix (lp : List Nat) (r : Nat) (h : IsRoot lp r) (m : Nat) :
    iterP lp m r = r := by
  induction m with
  | zero => rfl
  | succ m ih => rw [iterP_succ_inner, h, ih]

theorem iterP_mono_root (lp : List Nat) (m m' i : Nat)
    (h : IsRoot lp (iterP lp m i)) (hm : m ≤ m') :
    iterP lp m' i = iterP lp m i := by
  have h1 : m' = m + (m' - m) := by omega
  rw [h1, iterP_add, isRoot_iterP_fix _ _ h]

theorem iterP_lt (lp : List Nat) (PL : ∀ j, j < lp.length → parentD lp j < lp.length)
    (m i : Nat) (h : i < lp.length) : iterP lp m i < lp.length := by
  induction m generalizing i with
  | zero => exact h
  | succ m ih => exact ih _ (PL _ h)

theorem iterP_mul_cycle (lp : List Nat) (t k : Nat) (h : iterP lp t k = k) (a : Nat) :
    iterP lp (a * t) k = k := by
  induction a with
  | zero => rw [Nat.zero_mul]; rfl
  | succ a ih => rw [Nat.succ_mul, iterP_add, ih, h]

theorem cycle_free (lp : List Nat) (m k : Nat) (hroot : IsRoot lp (iterP lp m k))
    (hk : ¬ IsRoot lp k) (t : Nat) (ht : 0 < t) : iterP lp t k ≠ k := by
  intro hcyc
  have hcycm : iterP lp (m * t) k = k := iterP_mul_cycle lp t k hcyc m
  have hle : m ≤ m * t := Nat.le_mul_of_pos_right m ht
  have : iterP lp (m * t) k = iterP lp m k := iterP_mono_root lp m (m * t) k hroot hle
  apply hk
  have hk_eq : iterP lp m k = k := by rw [← this, hcycm]
  rw [← hk_eq]
  exact hroot

theorem iterP_set_avoid (lp : List Nat) (k x m : Nat) :
    ∀ j, (∀ t, t < m → iterP lp t j ≠ k) → iterP (lp.set k x) m j = iterP lp m j := by
  induction m with
  | zero => intro j _; rfl
  | succ m ih =>
    intro j hj
    have hjk : j ≠ k := hj 0 (Nat.succ_pos m)
    rw [iterP_succ_inner, iterP_succ_inner, parentD_set_ne lp k x j hjk]
    exact ih (parentD lp j) fun t ht => hj (t + 1) (by omega)

/-! Facts about `RootedAt`. -/

theorem rootedAt_isRoot (lp : List Nat) (i r : Nat) (h : RootedAt lp i r) :
    IsRoot lp r := by
  induction h with
  | self r hr => exact hr
  | step i r hi _ ih => exact ih

theorem rootedAt_unique (lp : List Nat) (i r r' : Nat) (h : RootedAt lp i r)
    (h' : RootedAt lp i r') : r = r' := by
  induction h with
  | self s hs =>
    cases h' with
    | self _ _ => rfl
    | step _ _ hi _ => exact absurd hs hi
  | step i r hi _ ih =>
    cases h' with
    | self _ hs => exact absurd hs hi
    | step _ _ _ hsub => exact ih hsub

theorem iterP_rootedAt (lp : List Nat) (m : Nat) :
    ∀ i, IsRoot lp (iterP lp m i) → RootedAt lp i (iterP lp m i) := by
  induction m with
  | zero => intro i h; exact RootedAt.self i h
  | succ m ih =>
    intro i h
    by_cases hi : IsRoot lp i
    · have h1 : iterP lp (m + 1) i = i := isRoot_iterP_fix lp i hi (m + 1)
      rw [h1]
      exact RootedAt.self i hi
    · rw [iterP_succ_inner] at h ⊢
      exact RootedAt.step i _ hi (ih _ h)

theorem rootedAt_iterP (lp : List Nat) (i r : Nat) (h : RootedAt lp i r) :
    ∃ m, iterP lp m i = r := by
  induction h with
  | self r _ => exact ⟨0, rfl⟩
  | step i r _ _ ih =>
    obtain ⟨m, hm⟩ := ih
    exact ⟨m + 1, by rw [iterP_succ_inner, hm]⟩

theorem depth_bound_aux (lp : List Nat)
    (PL : ∀ j, j < lp.length → parentD lp j < lp.length)
    (m i : Nat) (hi : i < lp.length) (hroot : IsRoot lp (iterP lp m i))
    (a b : Nat) (hab : a < b) (hb : b ≤ lp.length)
    (heq : iterP lp a i = iterP lp b i) :
    IsRoot lp (iterP lp (lp.length) i) ∧ iterP lp (lp.length) i = iterP lp m i := by
  set v := iterP lp a i with hv
  have hcyc : iterP lp (b - a) v = v := by
    rw [hv, ← iterP_add]
    have h1 : a + (b - a) = b := by omega
    rw [h1, ← heq]
  have hmv : iterP lp m v = iterP lp m i := by
    rw [hv, ← iterP_add]
    exact iterP_mono_root lp m (a + m) i hroot (by omega)
  have hroot_v : IsRoot lp (iterP lp m v) := by rw [hmv]; exact hroot
  have hv_root : IsRoot lp v := by
    by_contra hnv
    exact cycle_free lp m v hroot_v hnv (b - a) (by omega) hcyc
  have hna : iterP lp (lp.length) i = v := by
    rw [hv]
    exact iterP_mono_root lp a (lp.length) i (hv ▸ hv_root) (by omega)
  have hmi : iterP lp m i = v := by
    rw [← hmv, isRoot_iterP_fix lp v hv_root m]
  rw [hna, hmi]
  exact ⟨hv_root, rfl⟩

/-- In a map whose in-range entries stay in range, an in-range element that
reaches a root at all reaches it within `length` steps. -/
theorem depth_bound (lp : List Nat)
    (PL : ∀ j, j < lp.length → parentD lp j < lp.length)
    (m i : Nat) (hi : i < lp.length) (hroot : IsRoot lp (iterP lp m i)) :
    IsRoot lp (iterP lp (lp.length) i) ∧ iterP lp (lp.length) i = iterP lp m i := by
  set n := lp.length with hn
  rcases le_or_lt m n with hmn | hnm
  · have := iterP_mono_root lp m n i hroot hmn
    rw [this]
    exact ⟨hroot, rfl⟩
  · have hmaps : ∀ t ∈ Finset.range (n + 1), iterP lp t i ∈ Finset.range n := by
      intro t _
      exact Finset.mem_range.mpr (iterP_lt lp PL t i hi)
    have hcard : (Finset.range n).card < (Finset.range (n + 1)).card := by
      simp
    obtain ⟨a, ha, b, hb, hab, heq⟩ :=
      Finset.exists_ne_map_eq_of_card_lt_of_maps_to hcard hmaps
    rcases Nat.lt_or_ge a b with hlt | hge
    · exact depth_bound_aux lp PL m i hi hroot a b hlt
        (Nat.lt_succ_iff.mp (Finset.mem_range.mp hb)) heq
    · have hba : b < a := by omega
      exact depth_bound_aux lp PL m i hi hroot b a hba
        (Nat.lt_succ_iff.mp (Finset.mem_range.mp ha)) heq.symm

/-! A single path-halving write `parent(k) := parent(parent(k))` preserves
which root every element resolves to, and preserves the set of roots. -/

theorem rootedAt_set_halve (lp : List Nat) (k : Nat)
    (hk : k < lp.length) (hkr : ¬ IsRoot lp k)
    (hpp : parentD lp (parentD lp k) ≠ k)
    (j x : Nat) (h : RootedAt lp j x) :
    RootedAt (lp.set k (parentD lp (parentD lp k))) j x := by
  induction h with
  | self r hr =>
    have hrk : r ≠ k := fun h' => hkr (h' ▸ hr)
    refine RootedAt.self r ?_
    unfold IsRoot
    rw [parentD_set_ne lp k _ r hrk]
    exact hr
  | step j x hj hsub ih =>
    by_cases hjk : j = k
    · subst hjk
      have hps : parentD (lp.set j (parentD lp (parentD lp j))) j
          = parentD lp (parentD lp j) := parentD_set_self lp j _ hk
      have hpk : parentD lp j ≠ j := hkr
      have hnr : ¬ IsRoot (lp.set j (parentD lp (parentD lp j))) j := by
        unfold IsRoot
        rw [hps]
        exact hpp
      refine RootedAt.step j x hnr ?_
      rw [hps]
      cases ih with
      | self _ hr =>
        have hpar : parentD (lp.set j (parentD lp (parentD lp j))) (parentD lp j)
            = parentD lp (parentD lp j) :=
          parentD_set_ne lp j _ (parentD lp j) hpk
        have hfix2 : parentD lp (parentD lp j) = parentD lp j := by
          have h3 := hr
          unfold IsRoot at h3
          rw [hpar] at h3
          exact h3
        nth_rewrite 2 [hfix2]
        exact RootedAt.self _ hr
      | step _ _ hnp hsub1 =>
        have hpar : parentD (lp.set j (parentD lp (parentD lp j))) (parentD lp j)
            = parentD lp (parentD lp j) :=
          parentD_set_ne lp j _ (parentD lp j) hpk
        rw [hpar] at hsub1
        exact hsub1
    · have hpar : parentD (lp.set k (parentD lp (parentD lp k))) j = parentD lp j :=
        parentD_set_ne lp k _ j hjk
      refine RootedAt.step j x ?_ ?_
      · unfold IsRoot
        rw [hpar]
        exact hj
      · rw [hpar]
        exact ih

theorem isRoot_set_halve (lp : List Nat) (k : Nat)
    (hk : k < lp.length) (hkr : ¬ IsRoot lp k)
    (hpp : parentD lp (parentD lp k) ≠ k) (j : Nat) :
    IsRoot (lp.set k (parentD lp (parentD lp k))) j ↔ IsRoot lp j := by
  by_cases hjk : j = k
  · subst hjk
    unfold IsRoot
    rw [parentD_set_self lp j _ hk]
    constructor
    · intro h; exact absurd h hpp
    · intro h; exact absurd h hkr
  · unfold IsRoot
    rw [parentD_set_ne lp k _ j hjk]

/-- Main specification of the `find` loop: starting at an in-range key whose
path reaches a root in `m` steps, with more than `m` units of fuel the loop
returns that root, keeps the map's length and range-closure, preserves every
element's root and preserves the set of roots. -/
theorem findLoop_main (m : Nat) :
    ∀ (lp : List Nat) (k p fuel : Nat),
      (∀ j, j < lp.length → parentD lp j < lp.length) →
      k < lp.length →
      parentD lp k = p →
      IsRoot lp (iterP lp m k) →
      m < fuel →
      ∃ lp', findLoop fuel lp k p = some (lp', iterP lp m k) ∧
        lp'.length = lp.length ∧
        (∀ j, j < lp'.length → parentD lp' j < lp'.length) ∧
        (∀ j x, RootedAt lp j x → RootedAt lp' j x) ∧
        (∀ j, IsRoot lp' j ↔ IsRoot lp j) := by
  induction m with
  | zero =>
    intro lp k p fuel PL hk hp hroot hfuel
    obtain ⟨f, rfl⟩ : ∃ f, fuel = f + 1 := ⟨fuel - 1, by omega⟩
    have hpk : p = k := by
      have : parentD lp k = k := hroot
      omega
    subst hpk
    exact ⟨lp, by simp [findLoop, iterP], rfl, PL, fun j x h => h, fun j => Iff.rfl⟩
  | succ m ih =>
    intro lp k p fuel PL hk hp hroot hfuel
    obtain ⟨f, rfl⟩ : ∃ f, fuel = f + 1 := ⟨fuel - 1, by omega⟩
    by_cases hkr : IsRoot lp k
    · have hpk : p = k := by
        have : parentD lp k = k := hkr
        omega
      subst hpk
      have hfix : iterP lp (m + 1) p = p := isRoot_iterP_fix lp p hkr (m + 1)
      exact ⟨lp, by simp [findLoop, hfix], rfl, PL, fun j x h => h, fun j => Iff.rfl⟩
    · have hpk : p ≠ k := by
        intro h'
        exact hkr (show parentD lp k = k from h' ▸ hp)
      have hplt : p < lp.length := hp ▸ PL k hk
      have hget : lp.get? p = some (parentD lp p) := parentD_eq_get? lp p hplt
      have hiter2 : iterP lp 2 k = parentD lp p := by
        show iterP lp 1 (parentD lp k) = parentD lp p
        rw [hp]
        show parentD lp p = parentD lp p
        rfl
      have hppk : parentD lp p ≠ k := by
        have := cycle_free lp (m + 1) k hroot hkr 2 (by omega)
        rw [hiter2] at this
        exact this
      have havoid : ∀ t, iterP lp t p ≠ k := by
        intro t hcontra
        have h1 : iterP lp (t + 1) k = k := by
          show iterP lp t (parentD lp k) = k
          rw [hp]
          exact hcontra
        exact cycle_free lp (m + 1) k hroot hkr (t + 1) (by omega) h1
      set pp := parentD lp p with hpp_def
      set lp1 := lp.set k pp with hlp1
      have hins : mapInsert lp k pp = lp1 := mapInsert_lt lp k pp hk
      have hlen1 : lp1.length = lp.length := by
        rw [hlp1]
        exact lp.length_set k pp
      have hshift : iterP lp (m + 1) k = iterP lp m p := by
        show iterP lp m (parentD lp k) = iterP lp m p
        rw [hp]
      have hiter_eq : iterP lp1 m p = iterP lp m p :=
        iterP_set_avoid lp k pp m p fun t _ => havoid t
      have hroot_ne : iterP lp m p ≠ k := by
        intro h'
        apply hkr
        rw [← h']
        rw [← hshift]
        exact hroot
      have hroot1 : IsRoot lp1 (iterP lp1 m p) := by
        rw [hiter_eq]
        unfold IsRoot
        rw [hlp1, parentD_set_ne lp k pp _ hroot_ne]
        rw [hshift] at hroot
        exact hroot
      have PL1 : ∀ j, j < lp1.length → parentD lp1 j < lp1.length := by
        intro j hj
        rw [hlen1] at hj ⊢
        by_cases hjk : j = k
        · subst hjk
          rw [hlp1, parentD_set_self lp j pp hk]
          exact PL p hplt
        · rw [hlp1, parentD_set_ne lp k pp j hjk]
          exact PL j hj
      have hp1 : parentD lp1 p = pp := by
        rw [hlp1, parentD_set_ne lp k pp p hpk]
      have hk1 : p < lp1.length := by rw [hlen1]; exact hplt
      have hpp2 : parentD lp (parentD lp k) ≠ k := by rw [hp]; exact hppk
      have he : lp.set k (parentD lp (parentD lp k)) = lp1 := by
        rw [hp, hlp1, hpp_def]
      obtain ⟨lp', hrun, hlen', PL', hpres', hir'⟩ :=
        ih lp1 p pp f PL1 hk1 hp1 hroot1 (by omega)
      refine ⟨lp', ?_, ?_, PL', ?_, ?_⟩
      · show findLoop (f + 1) lp k p = some (lp', iterP lp (m + 1) k)
        rw [findLoop]
        rw [if_neg hpk, hget]
        show findLoop f (mapInsert lp k pp) p pp = some (lp', iterP lp (m + 1) k)
        rw [hins, hrun, hiter_eq, hshift]
      · rw [hlen', hlen1]
      · intro j x h
        have h2 := rootedAt_set_halve lp k hk hkr hpp2 j x h
        rw [he] at h2
        exact hpres' j x h2
      · intro j
        rw [hir' j]
        have h2 := isRoot_set_halve lp k hk hkr hpp2 j
        rw [he] at h2
        exact h2

/-- Full specification of `find` on a well-formed state and in-range key:
it succeeds, returns the key's root, leaves the payload untouched, and the
rewritten parent map keeps its length, stays range-closed, preserves every
element's root, preserves the set of roots, and is itself well-formed. -/
theorem find_spec (uf : QuickUnionUf V) (key : Nat)
    (hwf : WF uf) (hk : key < uf.link_parent.length) :
    ∃ lp', find uf key =
        some ({ uf with link_parent := lp' }, rootOf uf.link_parent key) ∧
      lp'.length = uf.link_parent.length ∧
      (∀ j, j < lp'.length → parentD lp' j < lp'.length) ∧
      (∀ j x, RootedAt uf.link_parent j x → RootedAt lp' j x) ∧
      (∀ j, IsRoot lp' j ↔ IsRoot uf.link_parent j) ∧
      (∀ j, j < uf.link_parent.length → rootOf lp' j = rootOf uf.link_parent j) ∧
      (∀ j, j < lp'.length → IsRoot lp' (iterP lp' lp'.length j)) := by
  obtain ⟨hlen, PL, rooted⟩ := hwf
  have hget : uf.link_parent.get? key = some (parentD uf.link_parent key) :=
    parentD_eq_get? uf.link_parent key hk
  have hroot : IsRoot uf.link_parent
      (iterP uf.link_parent uf.link_parent.length key) := rooted key hk
  obtain ⟨lp', hrun, hlen', PL', hpres', hir'⟩ :=
    findLoop_main uf.link_parent.length uf.link_parent key
      (parentD uf.link_parent key) (uf.link_parent.length + 1)
      PL hk rfl hroot (by omega)
  have hroots' : ∀ j, j < uf.link_parent.length →
      rootOf lp' j = rootOf uf.link_parent j ∧
      IsRoot lp' (iterP lp' lp'.length j) := by
    intro j hj
    have h1 : RootedAt uf.link_parent j
        (iterP uf.link_parent uf.link_parent.length j) :=
      iterP_rootedAt uf.link_parent uf.link_parent.length j (rooted j hj)
    have h2 := hpres' j _ h1
    obtain ⟨m', hm'⟩ := rootedAt_iterP lp' j _ h2
    have h3 : IsRoot lp' (iterP lp' m' j) := by
      rw [hm']
      exact rootedAt_isRoot lp' j _ h2
    have h4 := depth_bound lp' PL' m' j (by rw [hlen']; exact hj) h3
    constructor
    · show iterP lp' lp'.length j = rootOf uf.link_parent j
      rw [h4.2, hm']
      rfl
    · exact h4.1
  refine ⟨lp', ?_, hlen', PL', hpres', hir', fun j hj => (hroots' j hj).1, ?_⟩
  · simp only [find, hget, hrun]
    rfl
  · intro j hj
    exact (hroots' j (by rw [← hlen']; exact hj)).2

/-- `find` preserves the structural invariant and the slot invariant. -/
theorem slotInv_transfer (uf uf' : QuickUnionUf V)
    (hpay : uf'.payload = uf.payload)
    (hroots : ∀ j, IsRoot uf'.link_parent j ↔ IsRoot uf.link_parent j)
    (hs : SlotInv uf) : SlotInv uf' := by
  intro i hi
  rw [hpay] at hi ⊢
  rw [hroots i]
  exact hs i hi

theorem getD_eq_get? {α : Type} (l : List (Option α)) (i : Nat) (h : i < l.length) :
    l.get? i = some (l.getD i none) := by
  simp [List.getD, List.getD_eq_getElem?_getD, List.getElem?_eq_getElem h]

theorem rootOf_lt (lp : List Nat) (PL : ∀ j, j < lp.length → parentD lp j < lp.length)
    (i : Nat) (hi : i < lp.length) : rootOf lp i < lp.length :=
  iterP_lt lp PL lp.length i hi

theorem rootOf_of_isRoot (lp : List Nat) (r : Nat) (h : IsRoot lp r) :
    rootOf lp r = r :=
  isRoot_iterP_fix lp r h lp.length

/-- From any `RootedAt` witness, `rootOf` computes the same root (paths in a
range-closed map reach their root within `length` steps). -/
theorem rootOf_of_rootedAt (lp : List Nat)
    (PL : ∀ j, j < lp.length → parentD lp j < lp.length)
    (j x : Nat) (hj : j < lp.length) (h : RootedAt lp j x) :
    rootOf lp j = x ∧ IsRoot lp (iterP lp lp.length j) := by
  obtain ⟨m', hm'⟩ := rootedAt_iterP lp j x h
  have h3 : IsRoot lp (iterP lp m' j) := by
    rw [hm']
    exact rootedAt_isRoot lp j x h
  have h4 := depth_bound lp PL m' j hj h3
  refine ⟨?_, h4.1⟩
  show iterP lp lp.length j = x
  rw [h4.2, hm']

/-! Relinking one root beneath another (the parent-map write of `union`). -/

theorem rootedAt_set_relink (lp : List Nat) (c q : Nat)
    (hc : c < lp.length) (hcr : IsRoot lp c) (hqr : IsRoot lp q) (hne : c ≠ q)
    (j x : Nat) (h : RootedAt lp j x) :
    RootedAt (lp.set c q) j (if x = c then q else x) := by
  induction h with
  | self r hr =>
    by_cases hrc : r = c
    · rw [if_pos hrc]
      have hq1 : parentD (lp.set c q) r = q := by
        rw [hrc]
        exact parentD_set_self lp c q hc
      refine RootedAt.step r q ?_ ?_
      · unfold IsRoot
        rw [hq1]
        intro h'
        omega
      · rw [hq1]
        refine RootedAt.self q ?_
        unfold IsRoot
        rw [parentD_set_ne lp c q q fun h' => hne h'.symm]
        exact hqr
    · rw [if_neg hrc]
      refine RootedAt.self r ?_
      unfold IsRoot
      rw [parentD_set_ne lp c q r hrc]
      exact hr
  | step j x hj hsub ih =>
    have hjc : j ≠ c := fun h' => hj (h' ▸ hcr)
    have hpar : parentD (lp.set c q) j = parentD lp j := parentD_set_ne lp c q j hjc
    refine RootedAt.step j _ ?_ ?_
    · unfold IsRoot
      rw [hpar]
      exact hj
    · rw [hpar]
      exact ih

theorem isRoot_set_relink (lp : List Nat) (c q : Nat)
    (hc : c < lp.length) (hne : c ≠ q) (j : Nat) :
    IsRoot (lp.set c q) j ↔ (IsRoot lp j ∧ j ≠ c) := by
  by_cases hjc : j = c
  · subst hjc
    unfold IsRoot
    rw [parentD_set_self lp j q hc]
    constructor
    · intro h'; exact absurd h'.symm hne
    · intro h'; exact absurd rfl h'.2
  · unfold IsRoot
    rw [parentD_set_ne lp c q j hjc]
    constructor
    · intro h'; exact ⟨h', hjc⟩
    · intro h'; exact h'.1

/-- Effect of `parent(child) := parent_root` on a well-formed map: the map
stays well-formed, the child stops being a root, every other root survives,
and every element previously rooted at `c` is now rooted at `q`. -/
theorem relink_spec (lp : List Nat) (c q : Nat)
    (PL : ∀ j, j < lp.length → parentD lp j < lp.length)
    (rooted : ∀ i, i < lp.length → IsRoot lp (iterP lp lp.length i))
    (hc : c < lp.length) (hq : q < lp.length)
    (hcr : IsRoot lp c) (hqr : IsRoot lp q) (hne : c ≠ q) :
    (∀ j, j < (lp.set c q).length → parentD (lp.set c q) j < (lp.set c q).length) ∧
    (∀ j, j < (lp.set c q).length →
      IsRoot (lp.set c q) (iterP (lp.set c q) (lp.set c q).length j)) ∧
    (∀ j, j < lp.length → rootOf (lp.set c q) j =
      if rootOf lp j = c then q else rootOf lp j) := by
  have hlen2 : (lp.set c q).length = lp.length := lp.length_set c q
  have PL2 : ∀ j, j < (lp.set c q).length →
      parentD (lp.set c q) j < (lp.set c q).length := by
    intro j hj
    rw [hlen2] at hj ⊢
    by_cases hjc : j = c
    · subst hjc
      rw [parentD_set_self lp j q hc]
      exact hq
    · rw [parentD_set_ne lp c q j hjc]
      exact PL j hj
  have hmain : ∀ j, j < lp.length →
      rootOf (lp.set c q) j = (if rootOf lp j = c then q else rootOf lp j) ∧
      IsRoot (lp.set c q) (iterP (lp.set c q) (lp.set c q).length j) := by
    intro j hj
    have h1 : RootedAt lp j (iterP lp lp.length j) :=
      iterP_rootedAt lp lp.length j (rooted j hj)
    have h2 := rootedAt_set_relink lp c q hc hcr hqr hne j _ h1
    have h3 := rootOf_of_rootedAt (lp.set c q) PL2 j _ (by rw [hlen2]; exact hj) h2
    rw [hlen2] at h3
    exact ⟨h3.1, by rw [← hlen2] at h3; exact h3.2⟩
  refine ⟨PL2, ?_, fun j hj => (hmain j hj).1⟩
  intro j hj
  rw [hlen2] at hj
  exact (hmain j hj).2

theorem getD_set_self' {α : Type} (l : List α) (i : Nat) (x d : α)
    (h : i < l.length) : (l.set i x).getD i d = x := by
  simp [List.getD_eq_getElem?_getD, List.getElem?_set_self h]

theorem getD_set_ne' {α : Type} (l : List α) (i : Nat) (x d : α) (j : Nat)
    (h : j ≠ i) : (l.set i x).getD j d = l.getD j d := by
  simp [List.getD_eq_getElem?_getD, List.getElem?_set_ne (Ne.symm h)]

/-- Combined effect of the writes `union` performs once the two roots are
distinct: take both root payloads, store the merged value at the surviving
root `pr`, relink the losing root `cr` beneath it.  The state stays
well-formed, the slot invariant is preserved, only the two root slots change,
and elements rooted at `cr` are now rooted at `pr`. -/
theorem union_write_spec (lp : List Nat) (pay : List (Option V))
    (hlen : lp.length = pay.length)
    (PL : ∀ j, j < lp.length → parentD lp j < lp.length)
    (rooted : ∀ i, i < lp.length → IsRoot lp (iterP lp lp.length i))
    (r0 r1 pr cr : Nat) (v : V)
    (h01 : r0 ≠ r1)
    (hr0 : IsRoot lp r0) (hr1 : IsRoot lp r1)
    (hr0n : r0 < lp.length) (hr1n : r1 < lp.length)
    (hcase : (pr = r0 ∧ cr = r1) ∨ (pr = r1 ∧ cr = r0)) :
    (lp.set cr pr).length = lp.length ∧
    (((pay.set r0 none).set r1 none).set pr (some v)).length = pay.length ∧
    WFlink (lp.set cr pr) ∧
    ((∀ i, i < pay.length → ((pay.getD i none).isSome = true ↔ IsRoot lp i)) →
      ∀ i, i < (((pay.set r0 none).set r1 none).set pr (some v)).length →
      (((((pay.set r0 none).set r1 none).set pr (some v)).getD i none).isSome = true ↔
        IsRoot (lp.set cr pr) i)) ∧
    parentD (lp.set cr pr) cr = pr ∧
    (((pay.set r0 none).set r1 none).set pr (some v)).getD pr none = some v ∧
    (((pay.set r0 none).set r1 none).set pr (some v)).getD cr none = none ∧
    (∀ j, j ≠ r0 → j ≠ r1 →
      (((pay.set r0 none).set r1 none).set pr (some v)).getD j none =
        pay.getD j none) ∧
    (∀ j, j < lp.length → rootOf (lp.set cr pr) j =
      if rootOf lp j = cr then pr else rootOf lp j) := by
  have hpc : pr ≠ cr := by rcases hcase with ⟨h1, h2⟩ | ⟨h1, h2⟩ <;> omega
  have hprR : IsRoot lp pr := by
    rcases hcase with ⟨h1, h2⟩ | ⟨h1, h2⟩ <;> rw [h1] <;> assumption
  have hcrR : IsRoot lp cr := by
    rcases hcase with ⟨h1, h2⟩ | ⟨h1, h2⟩ <;> rw [h2] <;> assumption
  have hprn : pr < lp.length := by
    rcases hcase with ⟨h1, h2⟩ | ⟨h1, h2⟩ <;> omega
  have hcrn : cr < lp.length := by
    rcases hcase with ⟨h1, h2⟩ | ⟨h1, h2⟩ <;> omega
  have hlen_lp : (lp.set cr pr).length = lp.length := lp.length_set cr pr
  have hlen01 : (pay.set r0 none).length = pay.length := pay.length_set r0 none
  have hlen02 : ((pay.set r0 none).set r1 none).length = pay.length := by
    rw [List.length_set, hlen01]
  have hlen_pay : (((pay.set r0 none).set r1 none).set pr (some v)).length
      = pay.length := by
    rw [List.length_set, hlen02]
  obtain ⟨PL2, rooted2, hroots2⟩ :=
    relink_spec lp cr pr PL rooted hcrn hprn hcrR hprR (Ne.symm hpc)
  have hget_pr : (((pay.set r0 none).set r1 none).set pr (some v)).getD pr none
      = some v :=
    getD_set_self' _ pr (some v) none (by rw [hlen02]; omega)
  have hget_cr : (((pay.set r0 none).set r1 none).set pr (some v)).getD cr none
      = none := by
    rw [getD_set_ne' _ pr (some v) none cr (Ne.symm hpc)]
    rcases hcase with ⟨h1, h2⟩ | ⟨h1, h2⟩
    · rw [h2]
      exact getD_set_self' _ r1 none none (by rw [hlen01]; omega)
    · rw [h2, getD_set_ne' _ r1 none none r0 h01]
      exact getD_set_self' _ r0 none none (by omega)
  have hget_other : ∀ j, j ≠ r0 → j ≠ r1 →
      (((pay.set r0 none).set r1 none).set pr (some v)).getD j none =
        pay.getD j none := by
    intro j hj0 hj1
    have hjpr : j ≠ pr := by rcases hcase with ⟨h1, h2⟩ | ⟨h1, h2⟩ <;> omega
    rw [getD_set_ne' _ pr (some v) none j hjpr,
      getD_set_ne' _ r1 none none j hj1,
      getD_set_ne' _ r0 none none j hj0]
  refine ⟨hlen_lp, hlen_pay, ⟨PL2, rooted2⟩, ?_, ?_, hget_pr, hget_cr,
    hget_other, hroots2⟩
  · intro slot i hi
    rw [hlen_pay] at hi
    have hroot_iff : IsRoot (lp.set cr pr) i ↔ (IsRoot lp i ∧ i ≠ cr) :=
      isRoot_set_relink lp cr pr hcrn (Ne.symm hpc) i
    by_cases hipr : i = pr
    · rw [hroot_iff, hipr, hget_pr]
      simp
      exact ⟨hprR, hpc⟩
    · by_cases hicr : i = cr
      · rw [hroot_iff, hicr, hget_cr]
        simp
      · rw [hget_other i ?_ ?_, hroot_iff]
        · rw [slot i (by omega)]
          constructor
          · intro h'
            exact ⟨h', hicr⟩
          · intro h'
            exact h'.1
        · rcases hcase with ⟨h1, h2⟩ | ⟨h1, h2⟩ <;> omega
        · rcases hcase with ⟨h1, h2⟩ | ⟨h1, h2⟩ <;> omega
  · rw [parentD_set_self lp cr pr hcrn]

/-- The `(parent, child, val)` triple the source's `match` on the merge
outcome selects: `Left` keeps `k0` as parent root, `Right` keeps `k1`. -/
def unionDecision (k0 k1 : Nat) : UnionResult V → Nat × Nat × V
  | UnionResult.Left v => (k0, k1, v)
  | UnionResult.Right v => (k1, k0, v)

/-- `union` on two keys already sharing a root: returns `false`, leaves the
payload untouched, and the only state change is the path compression done by
the two embedded `find` calls, which alters no element's root and no root's
status. -/
theorem union_post_same [Union V] (uf : QuickUnionUf V) (a b : Nat)
    (hwf : WF uf) (ha : a < size uf) (hb : b < size uf)
    (heq : rootOf uf.link_parent a = rootOf uf.link_parent b) :
    ∃ lp1, union uf a b = some ({ uf with link_parent := lp1 }, false) ∧
      WF { uf with link_parent := lp1 } ∧
      (SlotInv uf → SlotInv { uf with link_parent := lp1 }) ∧
      (∀ j, j < uf.link_parent.length →
        rootOf lp1 j = rootOf uf.link_parent j) ∧
      (∀ j, IsRoot lp1 j ↔ IsRoot uf.link_parent j) := by
  obtain ⟨hlen, PL, rooted⟩ := hwf
  have ha' : a < uf.link_parent.length := by unfold size at ha; omega
  have hb' : b < uf.link_parent.length := by unfold size at hb; omega
  obtain ⟨lp0, hfa, hlen0, PL0, hpres0, hir0, hroots0, hrooted0⟩ :=
    find_spec uf a ⟨hlen, PL, rooted⟩ ha'
  have hfa2 : find uf a =
      some (QuickUnionUf.mk lp0 uf.payload, rootOf uf.link_parent a) := hfa
  have hwf0 : WF (QuickUnionUf.mk lp0 uf.payload) := by
    refine ⟨?_, PL0, hrooted0⟩
    show lp0.length = uf.payload.length
    rw [hlen0, hlen]
  have hb0 : b < lp0.length := by rw [hlen0]; exact hb'
  obtain ⟨lp1, hfb, hlen1, PL1, hpres1, hir1, hroots1, hrooted1⟩ :=
    find_spec (QuickUnionUf.mk lp0 uf.payload) b hwf0 hb0
  have hfb2 : find (QuickUnionUf.mk lp0 uf.payload) b =
      some (QuickUnionUf.mk lp1 uf.payload, rootOf lp0 b) := hfb
  have hlen1' : lp1.length = lp0.length := hlen1
  have hroots1' : ∀ j, j < lp0.length → rootOf lp1 j = rootOf lp0 j := hroots1
  have hir1' : ∀ j, IsRoot lp1 j ↔ IsRoot lp0 j := hir1
  have hr1b : rootOf lp0 b = rootOf uf.link_parent b := hroots0 b hb'
  have hcomp : union uf a b =
      some (QuickUnionUf.mk lp1 uf.payload, false) := by
    simp only [union, hfa2, hfb2]
    rw [hr1b, if_pos heq]
  refine ⟨lp1, hcomp, ⟨?_, PL1, hrooted1⟩, ?_, ?_, ?_⟩
  · show lp1.length = uf.payload.length
    rw [hlen1', hlen0, hlen]
  · intro hs i hi
    show (uf.payload.getD i none).isSome = true ↔ IsRoot lp1 i
    rw [hir1' i, hir0 i]
    exact hs i hi
  · intro j hj
    rw [hroots1' j (by rw [hlen0]; exact hj), hroots0 j hj]
  · intro j
    rw [hir1' j, hir0 j]

/-- `union` on two keys with distinct roots `r0 = find(a)`, `r1 = find(b)`:
it returns `true`; the merge policy's outcome picks the surviving root
(`Left` ⇒ `r0`, `Right` ⇒ `r1`), the merged value sits in the surviving
root's slot, the losing root's slot is empty and its parent link points at
the surviving root; no other payload slot changes, the invariants are
preserved, and afterwards both keys resolve to the surviving root. -/
theorem union_post_diff [Union V] (uf : QuickUnionUf V) (a b : Nat)
    (hwf : WF uf) (hs : SlotInv uf) (ha : a < size uf) (hb : b < size uf)
    (hne : rootOf uf.link_parent a ≠ rootOf uf.link_parent b) :
    ∃ (uf' : QuickUnionUf V) (v0 v1 : V),
      uf.payload.getD (rootOf uf.link_parent a) none = some v0 ∧
      uf.payload.getD (rootOf uf.link_parent b) none = some v1 ∧
      union uf a b = some (uf', true) ∧
      WF uf' ∧ SlotInv uf' ∧ size uf' = size uf ∧
      (∀ pc : Nat × Nat × V,
        pc = unionDecision (rootOf uf.link_parent a) (rootOf uf.link_parent b)
          (Union.union v0 v1) →
        uf'.payload.getD pc.1 none = some pc.2.2 ∧
        uf'.payload.getD pc.2.1 none = none ∧
        parentD uf'.link_parent pc.2.1 = pc.1 ∧
        (∀ j, j < uf.link_parent.length → rootOf uf'.link_parent j =
          if rootOf uf.link_parent j = pc.2.1 then pc.1
          else rootOf uf.link_parent j)) ∧
      (∀ j, j ≠ rootOf uf.link_parent a → j ≠ rootOf uf.link_parent b →
        uf'.payload.getD j none = uf.payload.getD j none) := by
  obtain ⟨hlen, PL, rooted⟩ := hwf
  have ha' : a < uf.link_parent.length := by unfold size at ha; omega
  have hb' : b < uf.link_parent.length := by unfold size at hb; omega
  obtain ⟨lp0, hfa, hlen0, PL0, hpres0, hir0, hroots0, hrooted0⟩ :=
    find_spec uf a ⟨hlen, PL, rooted⟩ ha'
  have hfa2 : find uf a =
      some (QuickUnionUf.mk lp0 uf.payload, rootOf uf.link_parent a) := hfa
  have hwf0 : WF (QuickUnionUf.mk lp0 uf.payload) := by
    refine ⟨?_, PL0, hrooted0⟩
    show lp0.length = uf.payload.length
    rw [hlen0, hlen]
  have hb0 : b < lp0.length := by rw [hlen0]; exact hb'
  obtain ⟨lp1, hfb, hlen1, PL1, hpres1, hir1, hroots1, hrooted1⟩ :=
    find_spec (QuickUnionUf.mk lp0 uf.payload) b hwf0 hb0
  have hfb2 : find (QuickUnionUf.mk lp0 uf.payload) b =
      some (QuickUnionUf.mk lp1 uf.payload, rootOf lp0 b) := hfb
  have hlen1' : lp1.length = lp0.length := hlen1
  have hroots1' : ∀ j, j < lp0.length → rootOf lp1 j = rootOf lp0 j := hroots1
  have hir1' : ∀ j, IsRoot lp1 j ↔ IsRoot lp0 j := hir1
  have hrooted1' : ∀ j, j < lp1.length → IsRoot lp1 (iterP lp1 lp1.length j) :=
    hrooted1
  have PL1' : ∀ j, j < lp1.length → parentD lp1 j < lp1.length := PL1
  have hr1b : rootOf lp0 b = rootOf uf.link_parent b := hroots0 b hb'
  have hr0root : IsRoot uf.link_parent (rootOf uf.link_parent a) := rooted a ha'
  have hr1root : IsRoot uf.link_parent (rootOf uf.link_parent b) := rooted b hb'
  have hr0n : rootOf uf.link_parent a < uf.link_parent.length :=
    rootOf_lt uf.link_parent PL a ha'
  have hr1n : rootOf uf.link_parent b < uf.link_parent.length :=
    rootOf_lt uf.link_parent PL b hb'
  have hr0pay : rootOf uf.link_parent a < uf.payload.length := by omega
  have hr1pay : rootOf uf.link_parent b < uf.payload.length := by omega
  obtain ⟨v0, hv0⟩ : ∃ v0,
      uf.payload.getD (rootOf uf.link_parent a) none = some v0 :=
    Option.isSome_iff_exists.mp ((hs _ hr0pay).mpr hr0root)
  obtain ⟨v1, hv1⟩ : ∃ v1,
      uf.payload.getD (rootOf uf.link_parent b) none = some v1 :=
    Option.isSome_iff_exists.mp ((hs _ hr1pay).mpr hr1root)
  have hget0 : uf.payload.get? (rootOf uf.link_parent a) = some (some v0) := by
    rw [getD_eq_get? _ _ hr0pay, hv0]
  have hget1 : (uf.payload.set (rootOf uf.link_parent a) none).get?
      (rootOf uf.link_parent b) = some (some v1) := by
    rw [List.get?_set_ne none uf.payload hne, getD_eq_get? _ _ hr1pay, hv1]
  have hlenlp1 : lp1.length = uf.link_parent.length := by rw [hlen1', hlen0]
  have hlenpay1 : lp1.length = uf.payload.length := by rw [hlenlp1, hlen]
  have slot1 : ∀ i, i < uf.payload.length →
      ((uf.payload.getD i none).isSome = true ↔ IsRoot lp1 i) := by
    intro i hi
    rw [hir1' i, hir0 i]
    exact hs i hi
  have hroot0_1 : IsRoot lp1 (rootOf uf.link_parent a) :=
    (hir1' _).mpr ((hir0 _).mpr hr0root)
  have hroot1_1 : IsRoot lp1 (rootOf uf.link_parent b) :=
    (hir1' _).mpr ((hir0 _).mpr hr1root)
  have hr0lp1 : rootOf uf.link_parent a < lp1.length := by omega
  have hr1lp1 : rootOf uf.link_parent b < lp1.length := by omega
  have hrootsAll : ∀ j, j < uf.link_parent.length →
      rootOf lp1 j = rootOf uf.link_parent j := by
    intro j hj
    rw [hroots1' j (by rw [hlen0]; exact hj), hroots0 j hj]
  cases hu : Union.union v0 v1 with
  | Left v =>
    obtain ⟨hwl1, hwl2, hwl3, hwl4, hwl5, hwl6, hwl7, hwl8, hwl9⟩ :=
      union_write_spec lp1 uf.payload hlenpay1 PL1' hrooted1'
        (rootOf uf.link_parent a) (rootOf uf.link_parent b)
        (rootOf uf.link_parent a) (rootOf uf.link_parent b) v
        hne hroot0_1 hroot1_1 hr0lp1 hr1lp1 (Or.inl ⟨rfl, rfl⟩)
    refine ⟨QuickUnionUf.mk
        (lp1.set (rootOf uf.link_parent b) (rootOf uf.link_parent a))
        (((uf.payload.set (rootOf uf.link_parent a) none).set
          (rootOf uf.link_parent b) none).set
          (rootOf uf.link_parent a) (some v)),
      v0, v1, hv0, hv1, ?_, ⟨?_, hwl3⟩, hwl4 slot1, ?_, ?_, ?_⟩
    · simp only [union, hfa2, hfb2, hr1b]
      rw [if_neg hne]
      simp only [hget0, hget1, hu,
        mapInsert_lt lp1 (rootOf uf.link_parent b) (rootOf uf.link_parent a) hr1lp1]
    · show (lp1.set (rootOf uf.link_parent b) (rootOf uf.link_parent a)).length
        = (((uf.payload.set (rootOf uf.link_parent a) none).set
          (rootOf uf.link_parent b) none).set
          (rootOf uf.link_parent a) (some v)).length
      rw [hwl1, hwl2, hlenpay1]
    · show (((uf.payload.set (rootOf uf.link_parent a) none).set
          (rootOf uf.link_parent b) none).set
          (rootOf uf.link_parent a) (some v)).length = uf.payload.length
      rw [hwl2]
    · intro pc hpc
      rw [hu] at hpc
      simp only [unionDecision] at hpc
      subst hpc
      refine ⟨hwl6, hwl7, hwl5, ?_⟩
      intro j hj
      have h9 := hwl9 j (by omega)
      rw [hrootsAll j hj] at h9
      exact h9
    · intro j hj0 hj1
      exact hwl8 j hj0 hj1
  | Right v =>
    obtain ⟨hwl1, hwl2, hwl3, hwl4, hwl5, hwl6, hwl7, hwl8, hwl9⟩ :=
      union_write_spec lp1 uf.payload hlenpay1 PL1' hrooted1'
        (rootOf uf.link_parent a) (rootOf uf.link_parent b)
        (rootOf uf.link_parent b) (rootOf uf.link_parent a) v
        hne hroot0_1 hroot1_1 hr0lp1 hr1lp1 (Or.inr ⟨rfl, rfl⟩)
    refine ⟨QuickUnionUf.mk
        (lp1.set (rootOf uf.link_parent a) (rootOf uf.link_parent b))
        (((uf.payload.set (rootOf uf.link_parent a) none).set
          (rootOf uf.link_parent b) none).set
          (rootOf uf.link_parent b) (some v)),
      v0, v1, hv0, hv1, ?_, ⟨?_, hwl3⟩, hwl4 slot1, ?_, ?_, ?_⟩
    · simp only [union, hfa2, hfb2, hr1b]
      rw [if_neg hne]
      simp only [hget0, hget1, hu,
        mapInsert_lt lp1 (rootOf uf.link_parent a) (rootOf uf.link_parent b) hr0lp1]
    · show (lp1.set (rootOf uf.link_parent a) (rootOf uf.link_parent b)).length
        = (((uf.payload.set (rootOf uf.link_parent a) none).set
          (rootOf uf.link_parent b) none).set
          (rootOf uf.link_parent b) (some v)).length
      rw [hwl1, hwl2, hlenpay1]
    · show (((uf.payload.set (rootOf uf.link_parent a) none).set
          (rootOf uf.link_parent b) none).set
          (rootOf uf.link_parent b) (some v)).length = uf.payload.length
      rw [hwl2]
    · intro pc hpc
      rw [hu] at hpc
      simp only [unionDecision] at hpc
      subst hpc
      refine ⟨hwl6, hwl7, hwl5, ?_⟩
      intro j hj
      have h9 := hwl9 j (by omega)
      rw [hrootsAll j hj] at h9
      exact h9
    · intro j hj0 hj1
      exact hwl8 j hj0 hj1

theorem getD_append' {α : Type} (l xs : List α) (j : Nat) (d : α)
    (h : j < l.length) : (l ++ xs).getD j d = l.getD j d := by
  simp [List.getD_eq_getElem?_getD, List.getElem?_append_left h]

theorem getD_concat_self {α : Type} (l : List α) (x d : α) :
    (l ++ [x]).getD l.length d = x := by
  simp [List.getD_eq_getElem?_getD, List.getElem?_concat_length]

theorem parentD_concat_self (lp : List Nat) (x : Nat) :
    parentD (lp ++ [x]) lp.length = x :=
  getD_concat_self lp x lp.length

/-- Paths that start in range stay inside the original list after an
append. -/
theorem iterP_append_in (lp xs : List Nat)
    (PL : ∀ j, j < lp.length → parentD lp j < lp.length) (m : Nat) :
    ∀ j, j < lp.length → iterP (lp ++ xs) m j = iterP lp m j := by
  induction m with
  | zero => intro j _; rfl
  | succ m ih =>
    intro j hj
    rw [iterP_succ_inner, iterP_succ_inner, parentD_append lp xs j hj]
    exact ih (parentD lp j) (PL j hj)

/-- `insert`: the returned key is the old size, one populated slot and one
self-loop entry are appended, both invariants are preserved, nothing about
the old elements changes, and the new element is its own root. -/
theorem insert_post (uf : QuickUnionUf V) (v : V)
    (hwf : WF uf) :
    (insert uf v).2 = size uf ∧
    size (insert uf v).1 = size uf + 1 ∧
    (insert uf v).1.payload = uf.payload ++ [some v] ∧
    (insert uf v).1.link_parent = uf.link_parent ++ [size uf] ∧
    WF (insert uf v).1 ∧ (SlotInv uf → SlotInv (insert uf v).1) ∧
    (∀ j, j < uf.link_parent.length →
      parentD (insert uf v).1.link_parent j = parentD uf.link_parent j ∧
      rootOf (insert uf v).1.link_parent j = rootOf uf.link_parent j) ∧
    (∀ j, j < uf.payload.length →
      (insert uf v).1.payload.getD j none = uf.payload.getD j none) ∧
    rootOf (insert uf v).1.link_parent (size uf) = size uf := by
  obtain ⟨hlen, PL, rooted⟩ := hwf
  have hkey : (insert uf v).2 = uf.payload.length := rfl
  have hpay : (insert uf v).1.payload = uf.payload ++ [some v] := rfl
  have hlink : (insert uf v).1.link_parent
      = uf.link_parent ++ [uf.payload.length] := by
    show mapInsert uf.link_parent uf.payload.length uf.payload.length
      = uf.link_parent ++ [uf.payload.length]
    rw [← hlen]
    exact mapInsert_append uf.link_parent uf.link_parent.length
  have hlenn : (uf.link_parent ++ [uf.payload.length]).length
      = uf.link_parent.length + 1 := by simp
  have hself : parentD (uf.link_parent ++ [uf.payload.length])
      uf.link_parent.length = uf.payload.length := by
    exact parentD_concat_self uf.link_parent uf.payload.length
  have hself' : IsRoot (uf.link_parent ++ [uf.payload.length])
      uf.link_parent.length := by
    unfold IsRoot
    rw [hself, hlen]
  have hPL' : ∀ j, j < (uf.link_parent ++ [uf.payload.length]).length →
      parentD (uf.link_parent ++ [uf.payload.length]) j <
        (uf.link_parent ++ [uf.payload.length]).length := by
    intro j hj
    rw [hlenn] at hj ⊢
    by_cases hjl : j < uf.link_parent.length
    · rw [parentD_append uf.link_parent _ j hjl]
      have := PL j hjl
      omega
    · have hje : j = uf.link_parent.length := by omega
      rw [hje, hself]
      omega
  have hiter : ∀ m j, j < uf.link_parent.length →
      iterP (uf.link_parent ++ [uf.payload.length]) m j = iterP uf.link_parent m j :=
    fun m => iterP_append_in uf.link_parent _ PL m
  have hroots' : ∀ j, j < uf.link_parent.length →
      rootOf (uf.link_parent ++ [uf.payload.length]) j = rootOf uf.link_parent j := by
    intro j hj
    show iterP (uf.link_parent ++ [uf.payload.length])
      (uf.link_parent ++ [uf.payload.length]).length j = rootOf uf.link_parent j
    rw [hlenn, hiter (uf.link_parent.length + 1) j hj]
    exact iterP_mono_root uf.link_parent uf.link_parent.length _ j (rooted j hj)
      (by omega)
  have hirup : ∀ j, j < uf.link_parent.length →
      (IsRoot (uf.link_parent ++ [uf.payload.length]) j ↔ IsRoot uf.link_parent j) := by
    intro j hj
    unfold IsRoot
    rw [parentD_append uf.link_parent _ j hj]
  have hrooted' : ∀ j, j < (uf.link_parent ++ [uf.payload.length]).length →
      IsRoot (uf.link_parent ++ [uf.payload.length])
        (iterP (uf.link_parent ++ [uf.payload.length])
          (uf.link_parent ++ [uf.payload.length]).length j) := by
    intro j hj
    rw [hlenn] at hj
    by_cases hjl : j < uf.link_parent.length
    · rw [hlenn, hiter (uf.link_parent.length + 1) j hjl,
        iterP_mono_root uf.link_parent uf.link_parent.length _ j (rooted j hjl)
          (by omega)]
      show IsRoot (uf.link_parent ++ [uf.payload.length]) (rootOf uf.link_parent j)
      rw [hirup (rootOf uf.link_parent j) (rootOf_lt uf.link_parent PL j hjl)]
      exact rooted j hjl
    · have hje : j = uf.link_parent.length := by omega
      rw [hje, isRoot_iterP_fix _ _ hself']
      exact hself'
  have hnewroot : rootOf (uf.link_parent ++ [uf.payload.length])
      uf.link_parent.length = uf.link_parent.length := rootOf_of_isRoot _ _ hself'
  refine ⟨hkey, by simp [size, hpay], hpay, hlink, ⟨?_, ?_, ?_⟩, ?_, ?_, ?_, ?_⟩
  · rw [hlink, hpay]
    simp [hlen]
  · rw [hlink]
    exact hPL'
  · rw [hlink]
    exact hrooted'
  · intro hs i hi
    rw [hpay] at hi ⊢
    rw [hlink]
    simp only [List.length_append, List.length_singleton] at hi
    by_cases hil : i < uf.payload.length
    · rw [getD_append' uf.payload _ i none hil, hirup i (by omega)]
      exact hs i hil
    · have hie : i = uf.payload.length := by omega
      have hself2 : IsRoot (uf.link_parent ++ [uf.payload.length])
          uf.payload.length := by
        have h2 := hself'
        rw [hlen] at h2
        exact h2
      rw [hie, getD_concat_self]
      constructor
      · intro _
        exact hself2
      · intro _
        rfl
  · intro j hj
    rw [hlink]
    exact ⟨parentD_append uf.link_parent _ j hj, hroots' j hj⟩
  · intro j hj
    rw [hpay]
    exact getD_append' uf.payload _ j none hj
  · rw [hlink]
    show rootOf (uf.link_parent ++ [uf.payload.length]) uf.payload.length
      = uf.payload.length
    have h2 := hnewroot
    rw [hlen] at h2
    exact h2

/-- `extend` is exactly repeated `insert` (the parent-map keys are dense, so
on any state with matching lengths the appended `(x, x)` entries coincide
with the entries repeated `insert` would create). -/
theorem extend_eq_foldl (vs : List V) :
    ∀ uf : QuickUnionUf V, uf.link_parent.length = uf.payload.length →
      extend uf vs = List.foldl (fun u w => (insert u w).1) uf vs := by
  induction vs with
  | nil =>
    intro uf _
    simp [extend]
  | cons v vs ih =>
    intro uf hlen
    have hstep : extend uf (v :: vs) = extend (insert uf v).1 vs := by
      show QuickUnionUf.mk
          (uf.link_parent ++ List.range' uf.payload.length
            ((uf.payload ++ List.map some (v :: vs)).length - uf.payload.length))
          (uf.payload ++ List.map some (v :: vs))
        = extend (insert uf v).1 vs
      show _ = QuickUnionUf.mk
          ((insert uf v).1.link_parent ++ List.range' (insert uf v).1.payload.length
            (((insert uf v).1.payload ++ List.map some vs).length -
              (insert uf v).1.payload.length))
          ((insert uf v).1.payload ++ List.map some vs)
      have hp : (insert uf v).1.payload = uf.payload ++ [some v] := rfl
      have hl : (insert uf v).1.link_parent
          = uf.link_parent ++ [uf.payload.length] := by
        show mapInsert uf.link_parent uf.payload.length uf.payload.length
          = uf.link_parent ++ [uf.payload.length]
        rw [← hlen]
        exact mapInsert_append uf.link_parent uf.link_parent.length
      rw [hp, hl]
      have hc1 : (uf.payload ++ List.map some (v :: vs)).length - uf.payload.length
          = vs.length + 1 := by simp
      have hc2 : ((uf.payload ++ [some v]) ++ List.map some vs).length -
          (uf.payload ++ [some v]).length = vs.length := by
        simp
        omega
      rw [hc1, hc2]
      have hr : List.range' uf.payload.length (vs.length + 1)
          = uf.payload.length :: List.range' (uf.payload.length + 1) vs.length :=
        List.range'_succ uf.payload.length vs.length 1
      rw [hr]
      have hplen : (uf.payload ++ [some v]).length = uf.payload.length + 1 := by
        simp
      rw [hplen]
      congr 1
      · rw [List.append_assoc]
        rfl
      · rw [List.append_assoc]
        rfl
    rw [hstep, List.foldl_cons]
    apply ih
    have hl2 : (insert uf v).1.link_parent
        = uf.link_parent ++ [uf.payload.length] := by
      show mapInsert uf.link_parent uf.payload.length uf.payload.length
        = uf.link_parent ++ [uf.payload.length]
      rw [← hlen]
      exact mapInsert_append uf.link_parent uf.link_parent.length
    have hp2 : (insert uf v).1.payload = uf.payload ++ [some v] := rfl
    rw [hl2, hp2]
    simp [hlen]

/-- `FromIterator` is `extend` from the empty structure, hence repeated
`insert` starting from the empty structure. -/
theorem from_iter_eq_foldl (vs : List V) :
    from_iter vs = List.foldl (fun u w => (insert u w).1)
      (QuickUnionUf.mk [] []) vs :=
  extend_eq_foldl vs (QuickUnionUf.mk [] []) rfl

/-- The empty structure is well-formed with the slot invariant. -/
theorem empty_WF : WF (QuickUnionUf.mk ([] : List Nat) ([] : List (Option V))) ∧
    SlotInv (QuickUnionUf.mk ([] : List Nat) ([] : List (Option V))) := by
  refine ⟨⟨rfl, ?_, ?_⟩, ?_⟩ <;> intro i hi <;> simp at hi

/-- Repeated `insert` preserves both invariants, never touches the parent
links, payload slots or roots of pre-existing elements, and makes each new
element a singleton rooted at itself. -/
theorem foldl_insert_post (vs : List V) :
    ∀ uf : QuickUnionUf V, WF uf →
      size (List.foldl (fun u w => (insert u w).1) uf vs) = size uf + vs.length ∧
      WF (List.foldl (fun u w => (insert u w).1) uf vs) ∧
      (SlotInv uf → SlotInv (List.foldl (fun u w => (insert u w).1) uf vs)) ∧
      (∀ j, j < uf.link_parent.length →
        parentD (List.foldl (fun u w => (insert u w).1) uf vs).link_parent j
          = parentD uf.link_parent j ∧
        rootOf (List.foldl (fun u w => (insert u w).1) uf vs).link_parent j
          = rootOf uf.link_parent j) ∧
      (∀ j, j < uf.payload.length →
        (List.foldl (fun u w => (insert u w).1) uf vs).payload.getD j none
          = uf.payload.getD j none) ∧
      (∀ t, t < vs.length →
        rootOf (List.foldl (fun u w => (insert u w).1) uf vs).link_parent
          (size uf + t) = size uf + t) := by
  induction vs with
  | nil =>
    intro uf hwf
    exact ⟨by simp [size], hwf, fun hs => hs, fun j _ => ⟨rfl, rfl⟩,
      fun j _ => rfl, fun t ht => absurd ht (by simp)⟩
  | cons v vs ih =>
    intro uf hwf
    obtain ⟨hkey, hsz, hpay, hlink, hwf1, hs1, hold, holdp, hnew⟩ :=
      insert_post uf v hwf
    obtain ⟨ihsz, ihwf, ihs, ihold, iholdp, ihnew⟩ :=
      ih (insert uf v).1 hwf1
    have hll : uf.link_parent.length < (insert uf v).1.link_parent.length := by
      rw [hlink]
      simp
    have hpl : uf.payload.length < (insert uf v).1.payload.length := by
      rw [hpay]
      simp
    rw [List.foldl_cons]
    refine ⟨by rw [ihsz, hsz]; simp only [List.length_cons]; omega,
      ihwf, fun hs => ihs (hs1 hs), ?_, ?_, ?_⟩
    · intro j hj
      obtain ⟨ih1, ih2⟩ := ihold j (by omega)
      obtain ⟨h1, h2⟩ := hold j hj
      exact ⟨by rw [ih1, h1], by rw [ih2, h2]⟩
    · intro j hj
      rw [iholdp j (by omega), holdp j hj]
    · intro t ht
      rcases Nat.eq_zero_or_pos t with ht0 | htpos
      · rw [ht0, Nat.add_zero]
        have hlt : size uf < (insert uf v).1.link_parent.length := by
          obtain ⟨hl1, _, _⟩ := hwf1
          have hsz2 : (insert uf v).1.payload.length = uf.payload.length + 1 := hsz
          rw [hl1, hsz2]
          show uf.payload.length < uf.payload.length + 1
          omega
        rw [(ihold (size uf) hlt).2]
        exact hnew
      · have hth : t - 1 < vs.length := by simp at ht; omega
        have := ihnew (t - 1) hth
        rw [hsz] at this
        have harith : size uf + 1 + (t - 1) = size uf + t := by omega
        rw [harith] at this
        exact this

/-- Invariants and frame conditions for `extend`, via its equivalence with
repeated `insert`. -/
theorem extend_post (uf : QuickUnionUf V) (vs : List V)
    (hwf : WF uf) :
    size (extend uf vs) = size uf + vs.length ∧
    WF (extend uf vs) ∧ (SlotInv uf → SlotInv (extend uf vs)) ∧
    (∀ j, j < uf.link_parent.length →
      parentD (extend uf vs).link_parent j = parentD uf.link_parent j ∧
      rootOf (extend uf vs).link_parent j = rootOf uf.link_parent j) ∧
    (∀ j, j < uf.payload.length →
      (extend uf vs).payload.getD j none = uf.payload.getD j none) ∧
    (∀ t, t < vs.length → rootOf (extend uf vs).link_parent (size uf + t)
      = size uf + t) := by
  rw [extend_eq_foldl vs uf hwf.1]
  exact foldl_insert_post vs uf hwf

/-- `get` on a well-formed state: resolves the root, returns its payload,
and only compresses paths. -/
theorem get_post (uf : QuickUnionUf V) (key : Nat)
    (hwf : WF uf) (hs : SlotInv uf) (hk : key < size uf) :
    ∃ (lp1 : List Nat) (v : V),
      get uf key = some (QuickUnionUf.mk lp1 uf.payload, v) ∧
      find uf key = some (QuickUnionUf.mk lp1 uf.payload,
        rootOf uf.link_parent key) ∧
      uf.payload.getD (rootOf uf.link_parent key) none = some v ∧
      WF (QuickUnionUf.mk lp1 uf.payload) ∧
      SlotInv (QuickUnionUf.mk lp1 uf.payload) ∧
      (∀ j, j < uf.link_parent.length →
        rootOf lp1 j = rootOf uf.link_parent j) := by
  obtain ⟨hlen, PL, rooted⟩ := hwf
  have hk' : key < uf.link_parent.length := by unfold size at hk; omega
  obtain ⟨lp1, hfind, hlen1, PL1, hpres1, hir1, hroots1, hrooted1⟩ :=
    find_spec uf key ⟨hlen, PL, rooted⟩ hk'
  have hfind2 : find uf key =
      some (QuickUnionUf.mk lp1 uf.payload, rootOf uf.link_parent key) := hfind
  have hrn : rootOf uf.link_parent key < uf.payload.length := by
    have := rootOf_lt uf.link_parent PL key hk'
    omega
  obtain ⟨v, hv⟩ : ∃ v,
      uf.payload.getD (rootOf uf.link_parent key) none = some v :=
    Option.isSome_iff_exists.mp ((hs _ hrn).mpr (rooted key hk'))
  have hget2 : uf.payload.get? (rootOf uf.link_parent key) = some (some v) := by
    rw [getD_eq_get? _ _ hrn, hv]
  refine ⟨lp1, v, ?_, hfind2, hv, ⟨?_, PL1, hrooted1⟩, ?_, hroots1⟩
  · simp only [get, hfind2, hget2]
  · show lp1.length = uf.payload.length
    rw [hlen1, hlen]
  · intro i hi
    show (uf.payload.getD i none).isSome = true ↔ IsRoot lp1 i
    rw [hir1 i]
    exact hs i hi

/-- `get_mut` on a well-formed state: resolves the root, returns its payload,
and the caller's write through the returned reference replaces the root's
payload; both invariants survive. -/
theorem get_mut_post (uf : QuickUnionUf V) (key : Nat) (w : V)
    (hwf : WF uf) (hs : SlotInv uf) (hk : key < size uf) :
    ∃ (lp1 : List Nat) (v : V),
      get_mut uf key w = some (QuickUnionUf.mk lp1
        (uf.payload.set (rootOf uf.link_parent key) (some w)), v) ∧
      uf.payload.getD (rootOf uf.link_parent key) none = some v ∧
      WF (QuickUnionUf.mk lp1
        (uf.payload.set (rootOf uf.link_parent key) (some w))) ∧
      SlotInv (QuickUnionUf.mk lp1
        (uf.payload.set (rootOf uf.link_parent key) (some w))) ∧
      (∀ j, j < uf.link_parent.length →
        rootOf lp1 j = rootOf uf.link_parent j) ∧
      (∀ j, j ≠ rootOf uf.link_parent key →
        (uf.payload.set (rootOf uf.link_parent key) (some w)).getD j none
          = uf.payload.getD j none) := by
  obtain ⟨hlen, PL, rooted⟩ := hwf
  have hk' : key < uf.link_parent.length := by unfold size at hk; omega
  obtain ⟨lp1, hfind, hlen1, PL1, hpres1, hir1, hroots1, hrooted1⟩ :=
    find_spec uf key ⟨hlen, PL, rooted⟩ hk'
  have hfind2 : find uf key =
      some (QuickUnionUf.mk lp1 uf.payload, rootOf uf.link_parent key) := hfind
  have hrn : rootOf uf.link_parent key < uf.payload.length := by
    have := rootOf_lt uf.link_parent PL key hk'
    omega
  obtain ⟨v, hv⟩ : ∃ v,
      uf.payload.getD (rootOf uf.link_parent key) none = some v :=
    Option.isSome_iff_exists.mp ((hs _ hrn).mpr (rooted key hk'))
  have hget2 : uf.payload.get? (rootOf uf.link_parent key) = some (some v) := by
    rw [getD_eq_get? _ _ hrn, hv]
  refine ⟨lp1, v, ?_, hv, ⟨?_, PL1, hrooted1⟩, ?_, hroots1, ?_⟩
  · simp only [get_mut, hfind2, hget2]
  · show lp1.length
      = (uf.payload.set (rootOf uf.link_parent key) (some w)).length
    rw [List.length_set, hlen1, hlen]
  · intro i hi
    show ((uf.payload.set (rootOf uf.link_parent key) (some w)).getD i none).isSome
      = true ↔ IsRoot lp1 i
    rw [List.length_set] at hi
    rw [hir1 i]
    by_cases hir : i = rootOf uf.link_parent key
    · rw [hir, getD_set_self' uf.payload _ (some w) none hrn]
      simp only [Option.isSome_some, true_iff]
      exact rooted key hk'
    · rw [getD_set_ne' uf.payload _ (some w) none i hir]
      exact hs i hi
  · intro j hj
    exact getD_set_ne' uf.payload _ (some w) none j hj

/-- `find` on an out-of-range key panics (the parent-map lookup `unwrap`
fails), for any fuel. -/
theorem find_oob (uf : QuickUnionUf V) (key : Nat)
    (hk : uf.link_parent.length ≤ key) : find uf key = none := by
  have h1 : uf.link_parent[key]? = none := List.getElem?_eq_none hk
  simp [find, h1]

theorem get_oob (uf : QuickUnionUf V) (key : Nat)
    (hk : uf.link_parent.length ≤ key) : get uf key = none := by
  simp [get, find_oob uf key hk]

theorem get_mut_oob (uf : QuickUnionUf V) (key : Nat) (w : V)
    (hk : uf.link_parent.length ≤ key) : get_mut uf key w = none := by
  simp [get_mut, find_oob uf key hk]

theorem union_oob_left [Union V] (uf : QuickUnionUf V) (a b : Nat)
    (ha : uf.link_parent.length ≤ a) : union uf a b = none := by
  simp [union, find_oob uf a ha]

theorem union_oob_right [Union V] (uf : QuickUnionUf V) (a b : Nat)
    (hwf : WF uf) (ha : a < uf.link_parent.length)
    (hb : uf.link_parent.length ≤ b) : union uf a b = none := by
  obtain ⟨lp0, hfa, hlen0, _, _, _, _, _⟩ := find_spec uf a hwf ha
  have hfa2 : find uf a =
      some (QuickUnionUf.mk lp0 uf.payload, rootOf uf.link_parent a) := hfa
  have hfb : find (QuickUnionUf.mk lp0 uf.payload) b = none := by
    apply find_oob
    show lp0.length ≤ b
    rw [hlen0]
    exact hb
  simp [union, hfa2, hfb]

theorem find_some_lt (uf : QuickUnionUf V) (k : Nat)
    (x : QuickUnionUf V × Nat) (h : find uf k = some x) :
    k < uf.link_parent.length := by
  by_contra h'
  rw [find_oob uf k (by omega)] at h
  cases h

theorem get_some_lt (uf : QuickUnionUf V) (k : Nat)
    (x : QuickUnionUf V × V) (h : get uf k = some x) :
    k < uf.link_parent.length := by
  by_contra h'
  rw [get_oob uf k (by omega)] at h
  cases h

theorem get_mut_some_lt (uf : QuickUnionUf V) (k : Nat) (w : V)
    (x : QuickUnionUf V × V) (h : get_mut uf k w = some x) :
    k < uf.link_parent.length := by
  by_contra h'
  rw [get_mut_oob uf k w (by omega)] at h
  cases h

theorem union_some_bounds [Union V] (uf : QuickUnionUf V) (a b : Nat)
    (x : QuickUnionUf V × Bool) (hwf : WF uf) (h : union uf a b = some x) :
    a < uf.link_parent.length ∧ b < uf.link_parent.length := by
  have ha : a < uf.link_parent.length := by
    by_contra h'
    rw [union_oob_left uf a b (by omega)] at h
    cases h
  refine ⟨ha, ?_⟩
  by_contra h'
  rw [union_oob_right uf a b hwf ha (by omega)] at h
  cases h

/-- A successful `find` preserves the structural invariant. -/
theorem find_some_WF (uf : QuickUnionUf V) (k : Nat) (uf' : QuickUnionUf V)
    (r : Nat) (hwf : WF uf) (h : find uf k = some (uf', r)) : WF uf' := by
  have hk := find_some_lt uf k _ h
  obtain ⟨lp1, hfind, hlen1, PL1, _, _, _, hrooted1⟩ := find_spec uf k hwf hk
  have hfind2 : find uf k =
      some (QuickUnionUf.mk lp1 uf.payload, rootOf uf.link_parent k) := hfind
  rw [hfind2] at h
  have h2 : QuickUnionUf.mk lp1 uf.payload = uf' :=
    congrArg Prod.fst (Option.some.inj h)
  rw [← h2]
  refine ⟨?_, PL1, hrooted1⟩
  show lp1.length = uf.payload.length
  rw [hlen1, hwf.1]

/-- A successful `get` preserves the structural invariant. -/
theorem get_some_WF (uf : QuickUnionUf V) (k : Nat) (uf' : QuickUnionUf V)
    (v : V) (hwf : WF uf) (h : get uf k = some (uf', v)) : WF uf' := by
  have hk := get_some_lt uf k _ h
  obtain ⟨lp1, hfind, hlen1, PL1, _, _, _, hrooted1⟩ := find_spec uf k hwf hk
  have hfind2 : find uf k =
      some (QuickUnionUf.mk lp1 uf.payload, rootOf uf.link_parent k) := hfind
  simp only [get, hfind2] at h
  cases hp : uf.payload.get? (rootOf uf.link_parent k) with
  | none =>
    rw [hp] at h
    exact Option.noConfusion h
  | some o =>
    cases o with
    | none =>
      rw [hp] at h
      exact Option.noConfusion h
    | some v2 =>
      simp only [hp] at h
      have h2 : QuickUnionUf.mk lp1 uf.payload = uf' :=
        congrArg Prod.fst (Option.some.inj h)
      rw [← h2]
      refine ⟨?_, PL1, hrooted1⟩
      show lp1.length = uf.payload.length
      rw [hlen1, hwf.1]

/-- A successful `get_mut`, together with the caller's write, preserves the
structural invariant. -/
theorem get_mut_some_WF (uf : QuickUnionUf V) (k : Nat) (w : V)
    (uf' : QuickUnionUf V) (v : V) (hwf : WF uf)
    (h : get_mut uf k w = some (uf', v)) : WF uf' := by
  have hk := get_mut_some_lt uf k w _ h
  obtain ⟨lp1, hfind, hlen1, PL1, _, _, _, hrooted1⟩ := find_spec uf k hwf hk
  have hfind2 : find uf k =
      some (QuickUnionUf.mk lp1 uf.payload, rootOf uf.link_parent k) := hfind
  simp only [get_mut, hfind2] at h
  cases hp : uf.payload.get? (rootOf uf.link_parent k) with
  | none =>
    rw [hp] at h
    exact Option.noConfusion h
  | some o =>
    cases o with
    | none =>
      rw [hp] at h
      exact Option.noConfusion h
    | some v2 =>
      simp only [hp] at h
      have h2 : QuickUnionUf.mk lp1
          (uf.payload.set (rootOf uf.link_parent k) (some w)) = uf' :=
        congrArg Prod.fst (Option.some.inj h)
      rw [← h2]
      refine ⟨?_, PL1, hrooted1⟩
      show lp1.length
        = (uf.payload.set (rootOf uf.link_parent k) (some w)).length
      rw [List.length_set, hlen1, hwf.1]

/-- A successful `union` preserves the structural invariant (no slot
invariant needed: the payload `unwrap`s succeeding is part of the
hypothesis). -/
theorem union_some_WF [Union V] (uf : QuickUnionUf V) (a b : Nat)
    (uf' : QuickUnionUf V) (t : Bool) (hwf : WF uf)
    (h : union uf a b = some (uf', t)) : WF uf' := by
  obtain ⟨ha, hb⟩ := union_some_bounds uf a b _ hwf h
  obtain ⟨hlen, PL, rooted⟩ := hwf
  obtain ⟨lp0, hfa, hlen0, PL0, hpres0, hir0, hroots0, hrooted0⟩ :=
    find_spec uf a ⟨hlen, PL, rooted⟩ ha
  have hfa2 : find uf a =
      some (QuickUnionUf.mk lp0 uf.payload, rootOf uf.link_parent a) := hfa
  have hwf0 : WF (QuickUnionUf.mk lp0 uf.payload) := by
    refine ⟨?_, PL0, hrooted0⟩
    show lp0.length = uf.payload.length
    rw [hlen0, hlen]
  have hb0 : b < lp0.length := by rw [hlen0]; exact hb
  obtain ⟨lp1, hfb, hlen1, PL1, hpres1, hir1, hroots1, hrooted1⟩ :=
    find_spec (QuickUnionUf.mk lp0 uf.payload) b hwf0 hb0
  have hfb2 : find (QuickUnionUf.mk lp0 uf.payload) b =
      some (QuickUnionUf.mk lp1 uf.payload, rootOf lp0 b) := hfb
  have hlen1' : lp1.length = lp0.length := hlen1
  have hir1' : ∀ j, IsRoot lp1 j ↔ IsRoot lp0 j := hir1
  have hrooted1' : ∀ j, j < lp1.length → IsRoot lp1 (iterP lp1 lp1.length j) :=
    hrooted1
  have PL1' : ∀ j, j < lp1.length → parentD lp1 j < lp1.length := PL1
  have hr1b : rootOf lp0 b = rootOf uf.link_parent b := hroots0 b hb
  have hlenpay1 : lp1.length = uf.payload.length := by rw [hlen1', hlen0, hlen]
  have hwf1 : WF (QuickUnionUf.mk lp1 uf.payload) := ⟨hlenpay1, PL1', hrooted1'⟩
  simp only [union, hfa2, hfb2, hr1b] at h
  by_cases he : rootOf uf.link_parent a = rootOf uf.link_parent b
  · rw [if_pos he] at h
    have h2 : QuickUnionUf.mk lp1 uf.payload = uf' :=
      congrArg Prod.fst (Option.some.inj h)
    rw [← h2]
    exact hwf1
  · rw [if_neg he] at h
    have hroot0_1 : IsRoot lp1 (rootOf uf.link_parent a) :=
      (hir1' _).mpr ((hir0 _).mpr (rooted a ha))
    have hroot1_1 : IsRoot lp1 (rootOf uf.link_parent b) :=
      (hir1' _).mpr ((hir0 _).mpr (rooted b hb))
    have hr0lp1 : rootOf uf.link_parent a < lp1.length := by
      have := rootOf_lt uf.link_parent PL a ha
      omega
    have hr1lp1 : rootOf uf.link_parent b < lp1.length := by
      have := rootOf_lt uf.link_parent PL b hb
      omega
    cases hp0 : uf.payload.get? (rootOf uf.link_parent a) with
    | none =>
      rw [hp0] at h
      exact Option.noConfusion h
    | some o =>
      cases o with
      | none =>
        rw [hp0] at h
        exact Option.noConfusion h
      | some v0 =>
        simp only [hp0] at h
        cases hp1 : (uf.payload.set (rootOf uf.link_parent a) none).get?
            (rootOf uf.link_parent b) with
        | none =>
          rw [hp1] at h
          exact Option.noConfusion h
        | some o1 =>
          cases o1 with
          | none =>
            rw [hp1] at h
            exact Option.noConfusion h
          | some v1 =>
            simp only [hp1] at h
            cases hu : Union.union v0 v1 with
            | Left v =>
              simp only [hu, mapInsert_lt lp1 (rootOf uf.link_parent b)
                (rootOf uf.link_parent a) hr1lp1] at h
              obtain ⟨hwl1, hwl2, hwl3, _, _, _, _, _, _⟩ :=
                union_write_spec lp1 uf.payload hlenpay1 PL1' hrooted1'
                  (rootOf uf.link_parent a) (rootOf uf.link_parent b)
                  (rootOf uf.link_parent a) (rootOf uf.link_parent b) v
                  he hroot0_1 hroot1_1 hr0lp1 hr1lp1 (Or.inl ⟨rfl, rfl⟩)
              have h2 : QuickUnionUf.mk
                  (lp1.set (rootOf uf.link_parent b) (rootOf uf.link_parent a))
                  (((uf.payload.set (rootOf uf.link_parent a) none).set
                    (rootOf uf.link_parent b) none).set
                    (rootOf uf.link_parent a) (some v)) = uf' :=
                congrArg Prod.fst (Option.some.inj h)
              rw [← h2]
              refine ⟨?_, hwl3⟩
              show (lp1.set (rootOf uf.link_parent b)
                  (rootOf uf.link_parent a)).length
                = (((uf.payload.set (rootOf uf.link_parent a) none).set
                  (rootOf uf.link_parent b) none).set
                  (rootOf uf.link_parent a) (some v)).length
              rw [hwl1, hwl2, hlenpay1]
            | Right v =>
              simp only [hu, mapInsert_lt lp1 (rootOf uf.link_parent a)
                (rootOf uf.link_parent b) hr0lp1] at h
              obtain ⟨hwl1, hwl2, hwl3, _, _, _, _, _, _⟩ :=
                union_write_spec lp1 uf.payload hlenpay1 PL1' hrooted1'
                  (rootOf uf.link_parent a) (rootOf uf.link_parent b)
                  (rootOf uf.link_parent b) (rootOf uf.link_parent a) v
                  he hroot0_1 hroot1_1 hr0lp1 hr1lp1 (Or.inr ⟨rfl, rfl⟩)
              have h2 : QuickUnionUf.mk
                  (lp1.set (rootOf uf.link_parent a) (rootOf uf.link_parent b))
                  (((uf.payload.set (rootOf uf.link_parent a) none).set
                    (rootOf uf.link_parent b) none).set
                    (rootOf uf.link_parent b) (some v)) = uf' :=
                congrArg Prod.fst (Option.some.inj h)
              rw [← h2]
              refine ⟨?_, hwl3⟩
              show (lp1.set (rootOf uf.link_parent a)
                  (rootOf uf.link_parent b)).length
                = (((uf.payload.set (rootOf uf.link_parent a) none).set
                  (rootOf uf.link_parent b) none).set
                  (rootOf uf.link_parent b) (some v)).length
              rw [hwl1, hwl2, hlenpay1]

/-- Every state reachable by successful public operations satisfies the
structural invariant and the slot invariant. -/
theorem reachable_inv [Union V] (uf : QuickUnionUf V) (h : Reachable uf) :
    WF uf ∧ SlotInv uf := by
  induction h with
  | empty => exact empty_WF
  | insert uf v hr ih =>
    obtain ⟨_, _, _, _, hwf1, hs1, _, _, _⟩ := insert_post uf v ih.1
    exact ⟨hwf1, hs1 ih.2⟩
  | union uf uf' a b t hr hu ih =>
    obtain ⟨hwf, hs⟩ := ih
    obtain ⟨ha, hb⟩ := union_some_bounds uf a b _ hwf hu
    have hlen := hwf.1
    have ha' : a < size uf := by unfold size; omega
    have hb' : b < size uf := by unfold size; omega
    by_cases hroots : rootOf uf.link_parent a = rootOf uf.link_parent b
    · obtain ⟨lp1, hcomp, hwf', hs', _, _⟩ :=
        union_post_same uf a b hwf ha' hb' hroots
      rw [hcomp] at hu
      have h1 := Option.some.inj hu
      have h2 : ({ uf with link_parent := lp1 } : QuickUnionUf V) = uf' :=
        congrArg Prod.fst h1
      rw [← h2]
      exact ⟨hwf', hs' hs⟩
    · obtain ⟨uf2, v0, v1, _, _, hcomp, hwf', hs', _, _, _⟩ :=
        union_post_diff uf a b hwf hs ha' hb' hroots
      rw [hcomp] at hu
      have h1 := Option.some.inj hu
      have h2 : uf2 = uf' := congrArg Prod.fst h1
      rw [← h2]
      exact ⟨hwf', hs'⟩
  | find uf uf' k r hr hf ih =>
    obtain ⟨hwf, hs⟩ := ih
    have hk := find_some_lt uf k _ hf
    obtain ⟨lp1, hfind, hlen1, PL1, _, hir1, _, hrooted1⟩ := find_spec uf k hwf hk
    have hfind2 : find uf k =
        some (QuickUnionUf.mk lp1 uf.payload, rootOf uf.link_parent k) := hfind
    rw [hfind2] at hf
    have h1 := Option.some.inj hf
    have h2 : QuickUnionUf.mk lp1 uf.payload = uf' := congrArg Prod.fst h1
    rw [← h2]
    refine ⟨⟨?_, PL1, hrooted1⟩, ?_⟩
    · show lp1.length = uf.payload.length
      rw [hlen1, hwf.1]
    · exact slotInv_transfer uf (QuickUnionUf.mk lp1 uf.payload) rfl hir1 hs
  | get uf uf' k v hr hg ih =>
    obtain ⟨hwf, hs⟩ := ih
    have hk : k < size uf := by
      have h1 := get_some_lt uf k _ hg
      have h2 := hwf.1
      unfold size
      omega
    obtain ⟨lp1, v2, hget, _, _, hwf', hs', _⟩ := get_post uf k hwf hs hk
    rw [hget] at hg
    have h1 := Option.some.inj hg
    have h2 : QuickUnionUf.mk lp1 uf.payload = uf' := congrArg Prod.fst h1
    rw [← h2]
    exact ⟨hwf', hs'⟩
  | get_mut uf uf' k w v hr hg ih =>
    obtain ⟨hwf, hs⟩ := ih
    have hk : k < size uf := by
      have h1 := get_mut_some_lt uf k w _ hg
      have h2 := hwf.1
      unfold size
      omega
    obtain ⟨lp1, v2, hget, _, hwf', hs', _, _⟩ := get_mut_post uf k w hwf hs hk
    rw [hget] at hg
    have h1 := Option.some.inj hg
    have h2 : QuickUnionUf.mk lp1
        (uf.payload.set (rootOf uf.link_parent k) (some w)) = uf' :=
      congrArg Prod.fst h1
    rw [← h2]
    exact ⟨hwf', hs'⟩
  | extend uf vs hr ih =>
    obtain ⟨_, hwf', hs', _, _, _⟩ := extend_post uf vs ih.1
    exact ⟨hwf', hs' ih.2⟩

/-! Decidability of the invariants, for evaluating them on concrete states. -/

instance (lp : List Nat) : Decidable (WFlink lp) :=
  inferInstanceAs (Decidable
    ((∀ i, i < lp.length → parentD lp i < lp.length) ∧
     (∀ i, i < lp.length → IsRoot lp (iterP lp lp.length i))))

instance (uf : QuickUnionUf V) : Decidable (WF uf) :=
  inferInstanceAs (Decidable
    (uf.link_parent.length = uf.payload.length ∧ WFlink uf.link_parent))

instance (uf : QuickUnionUf V) [DecidableEq V] : Decidable (SlotInv uf) :=
  inferInstanceAs (Decidable
    (∀ i, i < uf.payload.length →
      ((uf.payload.getD i none).isSome = true ↔ IsRoot uf.link_parent i)))

/-- A concrete merge policy on `Nat` payloads for evaluating the operations:
the left root always survives, carrying the sum. -/
instance : Union Nat :=
  ⟨fun x y => UnionResult.Left (x + y)⟩

/-- A small concrete state used to exercise the theorems: three elements,
element `2` merged under root `1` (the state `union 1 2` produces from three
singletons `10, 20, 30` under the left-sum policy), element `0` its own
root. -/
def ufW : QuickUnionUf Nat :=
  QuickUnionUf.mk [0, 1, 1] [some 10, some 50, none]

/-- A concrete state with a two-step chain `0 → 1 → 2`, on which `find`
performs a real path-halving write. -/
def ufC5 : QuickUnionUf Nat :=
  QuickUnionUf.mk [1, 2, 2] [none, none, some 7]

/-- If the key is already a root, `find` returns it and changes nothing. -/
theorem find_isRoot_self (uf : QuickUnionUf V) (k : Nat)
    (hk : k < uf.link_parent.length) (hr : IsRoot uf.link_parent k) :
    find uf k = some (uf, k) := by
  have hget : uf.link_parent[k]? = some k := by
    have h1 := parentD_eq_get? uf.link_parent k hk
    have h2 : parentD uf.link_parent k = k := hr
    rw [h2] at h1
    rw [List.get?_eq_getElem?] at h1
    exact h1
  simp [find, hget, findLoop]

/-- C1: on a well-formed state with both slot invariants, `union` on keys with
distinct roots `r0 = find(a)` and `r1 = find(b)` returns `true`; the merge
outcome picks the surviving root (`Left` ⇒ `r0`, `Right` ⇒ `r1`), the merged
value is stored in the surviving root's slot, the losing root's slot is left
empty, the losing root's parent link is rewritten to the surviving root, and
afterwards `a` and `b` resolve to the same root. -/
theorem C1_union_distinct_roots [Union V] (uf : QuickUnionUf V) (a b : Nat)
    (hwf : WF uf) (hs : SlotInv uf) (ha : a < size uf) (hb : b < size uf)
    (hne : rootOf uf.link_parent a ≠ rootOf uf.link_parent b) :
    ∃ (uf' : QuickUnionUf V) (v0 v1 : V),
      uf.payload.getD (rootOf uf.link_parent a) none = some v0 ∧
      uf.payload.getD (rootOf uf.link_parent b) none = some v1 ∧
      union uf a b = some (uf', true) ∧
      (∀ v, Union.union v0 v1 = UnionResult.Left v →
        uf'.payload.getD (rootOf uf.link_parent a) none = some v ∧
        uf'.payload.getD (rootOf uf.link_parent b) none = none ∧
        parentD uf'.link_parent (rootOf uf.link_parent b)
          = rootOf uf.link_parent a) ∧
      (∀ v, Union.union v0 v1 = UnionResult.Right v →
        uf'.payload.getD (rootOf uf.link_parent b) none = some v ∧
        uf'.payload.getD (rootOf uf.link_parent a) none = none ∧
        parentD uf'.link_parent (rootOf uf.link_parent a)
          = rootOf uf.link_parent b) ∧
      rootOf uf'.link_parent a = rootOf uf'.link_parent b := by
  obtain ⟨uf', v0, v1, hv0, hv1, hcomp, hwf', hs', hsz, hpc, hframe⟩ :=
    union_post_diff uf a b hwf hs ha hb hne
  have ha' : a < uf.link_parent.length := by
    have := hwf.1
    unfold size at ha
    omega
  have hb' : b < uf.link_parent.length := by
    have := hwf.1
    unfold size at hb
    omega
  refine ⟨uf', v0, v1, hv0, hv1, hcomp, ?_, ?_, ?_⟩
  · intro v hv
    obtain ⟨h1, h2, h3, _⟩ := hpc (rootOf uf.link_parent a,
      rootOf uf.link_parent b, v) (by rw [hv]; rfl)
    exact ⟨h1, h2, h3⟩
  · intro v hv
    obtain ⟨h1, h2, h3, _⟩ := hpc (rootOf uf.link_parent b,
      rootOf uf.link_parent a, v) (by rw [hv]; rfl)
    exact ⟨h1, h2, h3⟩
  · cases hu : Union.union v0 v1 with
    | Left v =>
      obtain ⟨_, _, _, h4⟩ := hpc (rootOf uf.link_parent a,
        rootOf uf.link_parent b, v) (by rw [hu]; rfl)
      have e1 := h4 a ha'
      have e2 := h4 b hb'
      dsimp only at e1 e2
      rw [e1, e2, if_neg hne, if_pos rfl]
    | Right v =>
      obtain ⟨_, _, _, h4⟩ := hpc (rootOf uf.link_parent b,
        rootOf uf.link_parent a, v) (by rw [hu]; rfl)
      have e1 := h4 a ha'
      have e2 := h4 b hb'
      dsimp only at e1 e2
      rw [e1, e2, if_pos rfl, if_neg fun h => hne h.symm]

theorem C1_witness :
    WF ufW ∧ SlotInv ufW ∧ 0 < size ufW ∧ 2 < size ufW ∧
    rootOf ufW.link_parent 0 ≠ rootOf ufW.link_parent 2 ∧
    (∃ (uf' : QuickUnionUf Nat) (v0 v1 : Nat),
      ufW.payload.getD (rootOf ufW.link_parent 0) none = some v0 ∧
      ufW.payload.getD (rootOf ufW.link_parent 2) none = some v1 ∧
      union ufW 0 2 = some (uf', true) ∧
      (∀ v, Union.union v0 v1 = UnionResult.Left v →
        uf'.payload.getD (rootOf ufW.link_parent 0) none = some v ∧
        uf'.payload.getD (rootOf ufW.link_parent 2) none = none ∧
        parentD uf'.link_parent (rootOf ufW.link_parent 2)
          = rootOf ufW.link_parent 0) ∧
      (∀ v, Union.union v0 v1 = UnionResult.Right v →
        uf'.payload.getD (rootOf ufW.link_parent 2) none = some v ∧
        uf'.payload.getD (rootOf ufW.link_parent 0) none = none ∧
        parentD uf'.link_parent (rootOf ufW.link_parent 0)
          = rootOf ufW.link_parent 2) ∧
      rootOf uf'.link_parent 0 = rootOf uf'.link_parent 2) :=
  ⟨by decide, by decide, by decide, by decide, by decide,
    C1_union_distinct_roots ufW 0 2 (by decide) (by decide) (by decide)
      (by decide) (by decide)⟩

/-- C2: on a well-formed state, `find` of an in-range key succeeds and returns
the key's root: an index satisfying `parent(root) == root` both before the
call and in the state the call's path-halving writes produce. -/
theorem C2_find_returns_root (uf : QuickUnionUf V) (key : Nat)
    (hwf : WF uf) (hk : key < size uf) :
    ∃ lp1, find uf key =
        some ({ uf with link_parent := lp1 }, rootOf uf.link_parent key) ∧
      IsRoot uf.link_parent (rootOf uf.link_parent key) ∧
      IsRoot lp1 (rootOf uf.link_parent key) := by
  have hk' : key < uf.link_parent.length := by
    have := hwf.1
    unfold size at hk
    omega
  obtain ⟨lp1, hfind, _, _, _, hir1, _, _⟩ := find_spec uf key hwf hk'
  have hroot : IsRoot uf.link_parent (rootOf uf.link_parent key) :=
    hwf.2.2 key hk'
  exact ⟨lp1, hfind, hroot, (hir1 _).mpr hroot⟩

theorem C2_witness :
    WF ufC5 ∧ 0 < size ufC5 ∧
    (∃ lp1, find ufC5 0 =
        some ({ ufC5 with link_parent := lp1 }, rootOf ufC5.link_parent 0) ∧
      IsRoot ufC5.link_parent (rootOf ufC5.link_parent 0) ∧
      IsRoot lp1 (rootOf ufC5.link_parent 0)) :=
  ⟨by decide, by decide, C2_find_returns_root ufC5 0 (by decide) (by decide)⟩

/-- C3: the parent-map invariant — totality over `[0, size)` and acyclicity
except for root self-loops, captured by `WF` — is preserved by every public
operation applied to a state in which it holds (for the fallible operations,
whenever they succeed). -/
theorem C3_invariant_preserved [Union V] (uf : QuickUnionUf V) (hwf : WF uf) :
    (∀ v, WF (insert uf v).1) ∧
    (∀ a b uf' t, union uf a b = some (uf', t) → WF uf') ∧
    (∀ k uf' r, find uf k = some (uf', r) → WF uf') ∧
    (∀ k uf' v, get uf k = some (uf', v) → WF uf') ∧
    (∀ k w uf' v, get_mut uf k w = some (uf', v) → WF uf') ∧
    (∀ vs, WF (extend uf vs)) ∧
    (∀ vs : List V, WF (from_iter vs)) := by
  refine ⟨?_, ?_, ?_, ?_, ?_, ?_, ?_⟩
  · intro v
    exact (insert_post uf v hwf).2.2.2.2.1
  · intro a b uf' t h
    exact union_some_WF uf a b uf' t hwf h
  · intro k uf' r h
    exact find_some_WF uf k uf' r hwf h
  · intro k uf' v h
    exact get_some_WF uf k uf' v hwf h
  · intro k w uf' v h
    exact get_mut_some_WF uf k w uf' v hwf h
  · intro vs
    exact (extend_post uf vs hwf).2.1
  · intro vs
    exact (extend_post (QuickUnionUf.mk [] []) vs empty_WF.1).2.1

theorem C3_witness :
    WF ufW ∧
    ((∀ v, WF (insert ufW v).1) ∧
     (∀ a b uf' t, union ufW a b = some (uf', t) → WF uf') ∧
     (∀ k uf' r, find ufW k = some (uf', r) → WF uf') ∧
     (∀ k uf' v, get ufW k = some (uf', v) → WF uf') ∧
     (∀ k w uf' v, get_mut ufW k w = some (uf', v) → WF uf') ∧
     (∀ vs, WF (extend ufW vs)) ∧
     (∀ vs : List Nat, WF (from_iter vs))) :=
  ⟨by decide, C3_invariant_preserved ufW (by decide)⟩

/-- C4: in every reachable state, a payload slot is populated exactly when
its index is a root, and each set has exactly one root — located at the
common `rootOf` of its members — so the populated slots are exactly the
roots. -/
theorem C4_slots_are_roots [Union V] (uf : QuickUnionUf V)
    (h : Reachable uf) :
    (∀ i, i < size uf →
      ((uf.payload.getD i none).isSome = true ↔ IsRoot uf.link_parent i)) ∧
    (∀ i, i < size uf →
      IsRoot uf.link_parent (rootOf uf.link_parent i) ∧
      ∀ j, j < size uf → IsRoot uf.link_parent j →
        rootOf uf.link_parent j = rootOf uf.link_parent i →
        j = rootOf uf.link_parent i) := by
  obtain ⟨⟨hlen, PL, rooted⟩, hs⟩ := reachable_inv uf h
  constructor
  · intro i hi
    exact hs i hi
  · intro i hi
    have hi' : i < uf.link_parent.length := by unfold size at hi; omega
    refine ⟨rooted i hi', ?_⟩
    intro j hj hjr hjeq
    rw [← hjeq]
    exact (rootOf_of_isRoot uf.link_parent j hjr).symm

theorem C4_witness :
    (∀ i, i < size ufW →
      ((ufW.payload.getD i none).isSome = true ↔ IsRoot ufW.link_parent i)) ∧
    (∀ i, i < size ufW →
      IsRoot ufW.link_parent (rootOf ufW.link_parent i) ∧
      ∀ j, j < size ufW → IsRoot ufW.link_parent j →
        rootOf ufW.link_parent j = rootOf ufW.link_parent i →
        j = rootOf ufW.link_parent i) := by
  have hreach : Reachable ufW := by
    have h0 := Reachable.empty (V := Nat)
    have h1 := Reachable.extend (QuickUnionUf.mk [] []) [10, 20, 30] h0
    have h2 : extend (QuickUnionUf.mk ([] : List Nat) ([] : List (Option Nat)))
        [10, 20, 30] = QuickUnionUf.mk [0, 1, 2] [some 10, some 20, some 30] := by
      decide
    rw [h2] at h1
    exact Reachable.union (QuickUnionUf.mk [0, 1, 2]
      [some 10, some 20, some 30]) ufW 1 2 true h1 (by decide)
  exact C4_slots_are_roots ufW hreach

/-- C5 as stated is false: on the chain `0 → 1 → 2` the call `union 0 0` has
`find(0) == find(0)` and returns `false`, but the embedded `find` calls
rewrite the parent links by path halving (`parent(0)` becomes `2`), so the
parent links are not left unchanged. -/
theorem C5_counterexample :
    WF ufC5 ∧ SlotInv ufC5 ∧ 0 < size ufC5 ∧
    rootOf ufC5.link_parent 0 = rootOf ufC5.link_parent 0 ∧
    union ufC5 0 0 =
      some (QuickUnionUf.mk [2, 2, 2] [none, none, some 7], false) ∧
    ([2, 2, 2] : List Nat) ≠ ufC5.link_parent := by
  exact ⟨by decide, by decide, by decide, rfl, by decide, by decide⟩

/-- C5 (amended): `union` on keys sharing a root returns `false`, leaves all
payload slots unchanged and changes no element's root and no root's status;
the parent links, however, may be rewritten by the two embedded `find`
calls' path halving. -/
theorem C5_union_same_root [Union V] (uf : QuickUnionUf V) (a b : Nat)
    (hwf : WF uf) (ha : a < size uf) (hb : b < size uf)
    (heq : rootOf uf.link_parent a = rootOf uf.link_parent b) :
    ∃ lp1, union uf a b = some ({ uf with link_parent := lp1 }, false) ∧
      ({ uf with link_parent := lp1 } : QuickUnionUf V).payload = uf.payload ∧
      (∀ j, j < uf.link_parent.length →
        rootOf lp1 j = rootOf uf.link_parent j) ∧
      (∀ j, IsRoot lp1 j ↔ IsRoot uf.link_parent j) := by
  obtain ⟨lp1, hcomp, _, _, hroots, hir⟩ :=
    union_post_same uf a b hwf ha hb heq
  exact ⟨lp1, hcomp, rfl, hroots, hir⟩

theorem C5_witness :
    WF ufC5 ∧ 0 < size ufC5 ∧
    rootOf ufC5.link_parent 0 = rootOf ufC5.link_parent 0 ∧
    (∃ lp1, union ufC5 0 0 = some ({ ufC5 with link_parent := lp1 }, false) ∧
      ({ ufC5 with link_parent := lp1 } : QuickUnionUf Nat).payload
        = ufC5.payload ∧
      (∀ j, j < ufC5.link_parent.length →
        rootOf lp1 j = rootOf ufC5.link_parent j) ∧
      (∀ j, IsRoot lp1 j ↔ IsRoot ufC5.link_parent j)) :=
  ⟨by decide, by decide, rfl,
    C5_union_same_root ufC5 0 0 (by decide) (by decide) (by decide) rfl⟩

/-- C6: `insert` appends a populated slot holding the value and a self-loop
parent entry for the new index, returns the old size as the new index, grows
the size by exactly one, and the fresh index is a singleton root:
`find` returns it unchanged. -/
theorem C6_insert_singleton (uf : QuickUnionUf V) (v : V)
    (hlen : uf.link_parent.length = uf.payload.length) :
    (insert uf v).2 = size uf ∧
    size (insert uf v).1 = size uf + 1 ∧
    (insert uf v).1.payload = uf.payload ++ [some v] ∧
    (insert uf v).1.payload.getD (size uf) none = some v ∧
    (insert uf v).1.link_parent = uf.link_parent ++ [size uf] ∧
    find (insert uf v).1 (size uf) = some ((insert uf v).1, size uf) := by
  have hpay : (insert uf v).1.payload = uf.payload ++ [some v] := rfl
  have hlink : (insert uf v).1.link_parent
      = uf.link_parent ++ [uf.payload.length] := by
    show mapInsert uf.link_parent uf.payload.length uf.payload.length
      = uf.link_parent ++ [uf.payload.length]
    rw [← hlen]
    exact mapInsert_append uf.link_parent uf.link_parent.length
  have hroot : IsRoot (insert uf v).1.link_parent (size uf) := by
    rw [hlink]
    unfold IsRoot
    show parentD (uf.link_parent ++ [uf.payload.length]) uf.payload.length
      = uf.payload.length
    have h2 := parentD_concat_self uf.link_parent uf.payload.length
    rw [hlen] at h2
    exact h2
  have hkb : size uf < (insert uf v).1.link_parent.length := by
    rw [hlink]
    simp only [List.length_append, List.length_singleton]
    unfold size
    omega
  refine ⟨rfl, by simp [size, hpay], hpay, ?_, hlink, ?_⟩
  · rw [hpay]
    show (uf.payload ++ [some v]).getD uf.payload.length none = some v
    exact getD_concat_self uf.payload (some v) none
  · exact find_isRoot_self _ _ hkb hroot

theorem C6_witness :
    ufW.link_parent.length = ufW.payload.length ∧
    ((insert ufW 7).2 = size ufW ∧
     size (insert ufW 7).1 = size ufW + 1 ∧
     (insert ufW 7).1.payload = ufW.payload ++ [some 7] ∧
     (insert ufW 7).1.payload.getD (size ufW) none = some 7 ∧
     (insert ufW 7).1.link_parent = ufW.link_parent ++ [size ufW] ∧
     find (insert ufW 7).1 (size ufW) = some ((insert ufW 7).1, size ufW)) :=
  ⟨by decide, C6_insert_singleton ufW 7 (by decide)⟩

/-- C7: `find` is observably idempotent — a second `find` of the same key
returns the same root, and the path-halving writes change no element's root,
so any two keys are in the same set after a `find` exactly when they were
before. -/
theorem C7_find_idempotent (uf : QuickUnionUf V) (k : Nat)
    (hwf : WF uf) (hk : k < size uf) :
    ∃ uf1, find uf k = some (uf1, rootOf uf.link_parent k) ∧
      (∃ uf2, find uf1 k = some (uf2, rootOf uf.link_parent k)) ∧
      (∀ i, i < size uf → rootOf uf1.link_parent i = rootOf uf.link_parent i) ∧
      (∀ i j, i < size uf → j < size uf →
        (rootOf uf1.link_parent i = rootOf uf1.link_parent j ↔
          rootOf uf.link_parent i = rootOf uf.link_parent j)) := by
  have hk' : k < uf.link_parent.length := by
    have := hwf.1
    unfold size at hk
    omega
  obtain ⟨lp1, hfind, hlen1, PL1, _, _, hroots1, hrooted1⟩ :=
    find_spec uf k hwf hk'
  have hwf1 : WF (QuickUnionUf.mk lp1 uf.payload) := by
    refine ⟨?_, PL1, hrooted1⟩
    show lp1.length = uf.payload.length
    rw [hlen1, hwf.1]
  have hk1 : k < lp1.length := by rw [hlen1]; exact hk'
  obtain ⟨lp2, hfind2, _, _, _, _, _, _⟩ :=
    find_spec (QuickUnionUf.mk lp1 uf.payload) k hwf1 hk1
  have hfind2' : find (QuickUnionUf.mk lp1 uf.payload) k =
      some (QuickUnionUf.mk lp2 uf.payload, rootOf lp1 k) := hfind2
  have hroots1' : ∀ i, i < uf.link_parent.length →
      rootOf lp1 i = rootOf uf.link_parent i := hroots1
  refine ⟨QuickUnionUf.mk lp1 uf.payload, hfind, ?_, ?_, ?_⟩
  · refine ⟨QuickUnionUf.mk lp2 uf.payload, ?_⟩
    rw [hfind2', hroots1' k hk']
  · intro i hi
    exact hroots1' i (by unfold size at hi; have := hwf.1; omega)
  · intro i j hi hj
    rw [hroots1' i (by unfold size at hi; have := hwf.1; omega),
      hroots1' j (by unfold size at hj; have := hwf.1; omega)]

theorem C7_witness :
    WF ufC5 ∧ 0 < size ufC5 ∧
    (∃ uf1, find ufC5 0 = some (uf1, rootOf ufC5.link_parent 0) ∧
      (∃ uf2, find uf1 0 = some (uf2, rootOf ufC5.link_parent 0)) ∧
      (∀ i, i < size ufC5 →
        rootOf uf1.link_parent i = rootOf ufC5.link_parent i) ∧
      (∀ i j, i < size ufC5 → j < size ufC5 →
        (rootOf uf1.link_parent i = rootOf uf1.link_parent j ↔
          rootOf ufC5.link_parent i = rootOf ufC5.link_parent j))) :=
  ⟨by decide, by decide, C7_find_idempotent ufC5 0 (by decide) (by decide)⟩

/-- C8: all keyed operations are defined exactly on `[0, size)`.  Out of
range, the parent-map lookup `unwrap` fails (modelled by `none`); in range,
on a state satisfying both invariants, every operation succeeds — every
internal `unwrap` (parent-map lookups and payload-slot accesses) is
unreachable. -/
theorem C8_key_range [Union V] (uf : QuickUnionUf V)
    (hwf : WF uf) (hs : SlotInv uf) :
    (∀ k, size uf ≤ k →
      find uf k = none ∧ get uf k = none ∧ (∀ w, get_mut uf k w = none) ∧
      (∀ b, union uf k b = none)) ∧
    (∀ a b, a < size uf → size uf ≤ b → union uf a b = none) ∧
    (∀ k, k < size uf → (∃ x, find uf k = some x) ∧
      (∃ y, get uf k = some y) ∧ (∀ w, ∃ z, get_mut uf k w = some z)) ∧
    (∀ a b, a < size uf → b < size uf → ∃ u, union uf a b = some u) := by
  have hlen := hwf.1
  refine ⟨?_, ?_, ?_, ?_⟩
  · intro k hk
    have hk' : uf.link_parent.length ≤ k := by unfold size at hk; omega
    exact ⟨find_oob uf k hk', get_oob uf k hk',
      fun w => get_mut_oob uf k w hk', fun b => union_oob_left uf k b hk'⟩
  · intro a b ha hb
    have ha' : a < uf.link_parent.length := by unfold size at ha; omega
    have hb' : uf.link_parent.length ≤ b := by unfold size at hb; omega
    exact union_oob_right uf a b hwf ha' hb'
  · intro k hk
    have hk' : k < uf.link_parent.length := by unfold size at hk; omega
    obtain ⟨lp1, hfind, _, _, _, _, _, _⟩ := find_spec uf k hwf hk'
    obtain ⟨lp2, v, hget, _, _, _, _, _⟩ := get_post uf k hwf hs hk
    refine ⟨⟨_, hfind⟩, ⟨_, hget⟩, ?_⟩
    intro w
    obtain ⟨lp3, v3, hgm, _, _, _, _, _⟩ := get_mut_post uf k w hwf hs hk
    exact ⟨_, hgm⟩
  · intro a b ha hb
    by_cases heq : rootOf uf.link_parent a = rootOf uf.link_parent b
    · obtain ⟨lp1, hcomp, _, _, _, _⟩ := union_post_same uf a b hwf ha hb heq
      exact ⟨_, hcomp⟩
    · obtain ⟨uf', v0, v1, _, _, hcomp, _, _, _, _, _⟩ :=
        union_post_diff uf a b hwf hs ha hb heq
      exact ⟨_, hcomp⟩

theorem C8_witness :
    WF ufW ∧ SlotInv ufW ∧
    ((∀ k, size ufW ≤ k →
      find ufW k = none ∧ get ufW k = none ∧ (∀ w, get_mut ufW k w = none) ∧
      (∀ b, union ufW k b = none)) ∧
    (∀ a b, a < size ufW → size ufW ≤ b → union ufW a b = none) ∧
    (∀ k, k < size ufW → (∃ x, find ufW k = some x) ∧
      (∃ y, get ufW k = some y) ∧ (∀ w, ∃ z, get_mut ufW k w = some z)) ∧
    (∀ a b, a < size ufW → b < size ufW → ∃ u, union ufW a b = some u)) :=
  ⟨by decide, by decide, C8_key_range ufW (by decide) (by decide)⟩

/-- C9: bulk construction is exactly repeated `insert` — indices `0..n` in
order, `n` disjoint singleton sets — and `extend` is exactly repeated
`insert`, leaving the parent links, payload slots and canonical roots of all
pre-existing elements unchanged. -/
theorem C9_bulk_is_repeated_insert [Union V] (uf : QuickUnionUf V)
    (vs : List V) (hwf : WF uf) :
    from_iter vs = List.foldl (fun u w => (insert u w).1)
      (QuickUnionUf.mk [] []) vs ∧
    (from_iter (V := V) vs).payload = vs.map some ∧
    size (from_iter (V := V) vs) = vs.length ∧
    (∀ i, i < vs.length →
      rootOf (from_iter (V := V) vs).link_parent i = i) ∧
    extend uf vs = List.foldl (fun u w => (insert u w).1) uf vs ∧
    size (extend uf vs) = size uf + vs.length ∧
    (∀ j, j < uf.link_parent.length →
      parentD (extend uf vs).link_parent j = parentD uf.link_parent j ∧
      rootOf (extend uf vs).link_parent j = rootOf uf.link_parent j) ∧
    (∀ j, j < uf.payload.length →
      (extend uf vs).payload.getD j none = uf.payload.getD j none) := by
  obtain ⟨hesz, _, _, hold, holdp, hnew⟩ :=
    extend_post (QuickUnionUf.mk ([] : List Nat) ([] : List (Option V))) vs
      empty_WF.1
  obtain ⟨hesz2, _, _, hold2, holdp2, _⟩ := extend_post uf vs hwf
  refine ⟨from_iter_eq_foldl vs, rfl, ?_, ?_, extend_eq_foldl vs uf hwf.1,
    hesz2, hold2, holdp2⟩
  · show size (extend (QuickUnionUf.mk [] []) vs) = vs.length
    rw [hesz]
    simp [size]
  · intro i hi
    have h1 := hnew i hi
    show rootOf (extend (QuickUnionUf.mk [] []) vs).link_parent i = i
    have h2 : size (QuickUnionUf.mk ([] : List Nat)
        ([] : List (Option V))) + i = i := by
      unfold size
      simp
    rw [h2] at h1
    exact h1

theorem C9_witness :
    WF ufW ∧
    (from_iter [4, 5] = List.foldl (fun u w => (insert u w).1)
      (QuickUnionUf.mk [] []) [4, 5] ∧
    (from_iter (V := Nat) [4, 5]).payload = [4, 5].map some ∧
    size (from_iter (V := Nat) [4, 5]) = [4, 5].length ∧
    (∀ i, i < [4, 5].length →
      rootOf (from_iter (V := Nat) [4, 5]).link_parent i = i) ∧
    extend ufW [4, 5] = List.foldl (fun u w => (insert u w).1) ufW [4, 5] ∧
    size (extend ufW [4, 5]) = size ufW + [4, 5].length ∧
    (∀ j, j < ufW.link_parent.length →
      parentD (extend ufW [4, 5]).link_parent j
        = parentD ufW.link_parent j ∧
      rootOf (extend ufW [4, 5]).link_parent j
        = rootOf ufW.link_parent j) ∧
    (∀ j, j < ufW.payload.length →
      (extend ufW [4, 5]).payload.getD j none
        = ufW.payload.getD j none)) :=
  ⟨by decide, C9_bulk_is_repeated_insert ufW [4, 5] (by decide)⟩

/-- C10: `union` — whether it merges or not — keeps `size` unchanged and
modifies no payload slot outside the two resolved roots; when it returns
`true`, exactly one of those two root slots is populated afterwards. -/
theorem C10_union_frame [Union V] (uf : QuickUnionUf V) (a b : Nat)
    (hwf : WF uf) (hs : SlotInv uf) (ha : a < size uf) (hb : b < size uf) :
    ∃ uf' t, union uf a b = some (uf', t) ∧ size uf' = size uf ∧
      (∀ j, j ≠ rootOf uf.link_parent a → j ≠ rootOf uf.link_parent b →
        uf'.payload.getD j none = uf.payload.getD j none) ∧
      (t = true →
        ((uf'.payload.getD (rootOf uf.link_parent a) none).isSome = true ↔
          ¬ (uf'.payload.getD (rootOf uf.link_parent b) none).isSome = true)) := by
  by_cases heq : rootOf uf.link_parent a = rootOf uf.link_parent b
  · obtain ⟨lp1, hcomp, _, _, _, _⟩ := union_post_same uf a b hwf ha hb heq
    refine ⟨{ uf with link_parent := lp1 }, false, hcomp, rfl,
      fun j _ _ => rfl, ?_⟩
    intro h
    exact absurd h (by simp)
  · obtain ⟨uf', v0, v1, _, _, hcomp, _, _, hsz, hpc, hframe⟩ :=
      union_post_diff uf a b hwf hs ha hb heq
    refine ⟨uf', true, hcomp, hsz, hframe, ?_⟩
    intro _
    cases hu : Union.union v0 v1 with
    | Left v =>
      obtain ⟨h1, h2, _, _⟩ := hpc (rootOf uf.link_parent a,
        rootOf uf.link_parent b, v) (by rw [hu]; rfl)
      dsimp only at h1 h2
      rw [h1, h2]
      simp
    | Right v =>
      obtain ⟨h1, h2, _, _⟩ := hpc (rootOf uf.link_parent b,
        rootOf uf.link_parent a, v) (by rw [hu]; rfl)
      dsimp only at h1 h2
      rw [h1, h2]
      simp

theorem C10_witness :
    WF ufW ∧ SlotInv ufW ∧ 0 < size ufW ∧ 2 < size ufW ∧
    (∃ uf' t, union ufW 0 2 = some (uf', t) ∧ size uf' = size ufW ∧
      (∀ j, j ≠ rootOf ufW.link_parent 0 → j ≠ rootOf ufW.link_parent 2 →
        uf'.payload.getD j none = ufW.payload.getD j none) ∧
      (t = true →
        ((uf'.payload.getD (rootOf ufW.link_parent 0) none).isSome = true ↔
          ¬ (uf'.payload.getD (rootOf ufW.link_parent 2) none).isSome
            = true))) :=
  ⟨by decide, by decide, by decide, by decide,
    C10_union_frame ufW 0 2 (by decide) (by decide) (by decide) (by decide)⟩

end UFSpec
